import Mathlib

/-!
The AVX Mandelbrot kernel of `mandelbrot_intrinsics.cpp`.

A shallow embedding of `mandelbrot_intrinsics` and a verification of its
contract.

Modelling conventions.

* `T` (single precision in the source) is the field `ℚ`: every statement is
  about exact arithmetic.
* `__m256` is a vector of eight lanes, `Fin 8 → ℚ`; a comparison result
  (all-ones / all-zero lanes) is a vector of eight booleans.
* `size_t` values are natural numbers; `size_t_exact` shows that the index
  arithmetic does not wrap for a representable allocation size.
* `maxiter` and `max_len_sq` are declared in `defs.hpp`; the kernel takes them
  as parameters here.
* The heap cell `result[i]` is `Heap.cell i`; `Heap.stores` is the list of the
  element offsets handed to `_mm256_store_ps`, in program order.
* `_mm256_store_ps` is the aligned store: at an address that is not 32-byte
  aligned it raises a general-protection fault. `_mm256_store_ps` below is its
  effect when it does not fault; `_mm256_store_ps_checked` and the `_checked`
  loops carry the fault, and `kernel_checked_of_dvd` shows that the two agree
  whenever `re_size` is a multiple of 8, where every store is aligned.
* `#pragma omp parallel for if (task_parallel)` distributes the rows over
  threads: with `task_parallel` the rows are executed in the order of a
  `schedule`, otherwise in increasing order.
-/

namespace Mandelbrot

/-! ## Vector registers and the intrinsics used by the kernel -/

/-- The type `T` of `defs.hpp` (`float` in the source), here the exact field. -/
abbrev T := ℚ

/-- The constant `packing` of the source: lanes per register. -/
def packing : Nat := 8

/-- A register `__m256`: eight lanes of `T`. -/
abbrev __m256 := Fin 8 → T

/-- A register holding the result of a packed comparison: lane `i` is all-ones
(`true`) or all-zero (`false`). -/
abbrev mask256 := Fin 8 → Bool

/-- The intrinsic `_mm256_set1_ps`: broadcast. -/
def _mm256_set1_ps (a : T) : __m256 := fun _ => a

/-- The intrinsic `_mm256_setzero_ps`. -/
def _mm256_setzero_ps : __m256 := fun _ => 0

/-- The intrinsic `_mm256_set_ps`: the LAST argument is lane 0. -/
def _mm256_set_ps (e7 e6 e5 e4 e3 e2 e1 e0 : T) : __m256 :=
  ![e0, e1, e2, e3, e4, e5, e6, e7]

/-- The intrinsic `_mm256_add_ps`. -/
def _mm256_add_ps (a b : __m256) : __m256 := fun i => a i + b i

/-- The intrinsic `_mm256_sub_ps`. -/
def _mm256_sub_ps (a b : __m256) : __m256 := fun i => a i - b i

/-- The intrinsic `_mm256_mul_ps`. -/
def _mm256_mul_ps (a b : __m256) : __m256 := fun i => a i * b i

/-- The intrinsic `_mm256_cmp_ps(a, b, _CMP_LT_OS)`: lane-wise `a < b`. -/
def _mm256_cmp_ps_LT_OS (a b : __m256) : mask256 := fun i => decide (a i < b i)

/-- The intrinsic `_mm256_and_ps(a, m)` with `m` a comparison result: the lane
of `a` where the mask is all-ones, `+0.0` where it is all-zero. -/
def _mm256_and_ps (a : __m256) (m : mask256) : __m256 := fun i => if m i then a i else 0

/-- The intrinsic `_mm256_movemask_ps`: bit `i` of the result is the sign bit of
lane `i`. -/
def _mm256_movemask_ps (m : mask256) : Nat :=
  ∑ i : Fin 8, if m i then 2 ^ (i : Nat) else 0

/-! ## The heap -/

/-- The value of `sizeof(T)`, in bytes. -/
def sizeof_T : Nat := 4

/-- The memory reachable through `result`: the `alignment` and `size` (bytes)
requested from `aligned_alloc`, `cell i` for `result[i]` (`none` while never
stored to), `stores` the element offsets of the executed `_mm256_store_ps`,
oldest first. -/
structure Heap where
  alignment : Nat
  size : Nat
  cell : Nat → Option T
  stores : List Nat

/-- The block returned by `aligned_alloc(alignment, size)`: nothing stored yet. -/
def aligned_alloc (alignment size : Nat) : Heap :=
  { alignment := alignment, size := size, cell := fun _ => none, stores := [] }

/-- The effect of the intrinsic `_mm256_store_ps(&result[idx], v)` at a 32-byte
aligned address: lane `i` goes to `result[idx + i]`. At any other address the
instruction faults: see `_mm256_store_ps_checked`. -/
def _mm256_store_ps (result : Heap) (idx : Nat) (v : __m256) : Heap :=
  { result with
    cell := fun j =>
      if h : idx ≤ j ∧ j < idx + 8 then some (v ⟨j - idx, by omega⟩) else result.cell j
    stores := result.stores ++ [idx] }

/-- The element indices a list of stores addresses, in program order. -/
def written (stores : List Nat) : List Nat :=
  stores.flatMap fun idx => List.range' idx 8

/-! ## The kernel -/

/-- The loop of lines 48-65, `n` iterations before `iter` reaches `maxiter`. -/
def iter_loop (max_len_sq_v inv_maxiter re_coord im_coord : __m256) :
    Nat → __m256 → __m256 → __m256 → __m256
  | 0, _, _, counts => counts
  | n + 1, re, im, counts =>
    let re_sq := _mm256_mul_ps re re
    let im_sq := _mm256_mul_ps im im
    let re_im := _mm256_mul_ps re im
    let len_sq := _mm256_add_ps re_sq im_sq
    let not_diverged := _mm256_cmp_ps_LT_OS len_sq max_len_sq_v
    let tmp := _mm256_and_ps inv_maxiter not_diverged
    let counts := _mm256_add_ps counts tmp
    let mask := _mm256_movemask_ps not_diverged
    if mask = 0 then counts
    else
      iter_loop max_len_sq_v inv_maxiter re_coord im_coord n
        (_mm256_add_ps (_mm256_sub_ps re_sq im_sq) re_coord)
        (_mm256_add_ps (_mm256_add_ps re_im re_im) im_coord)
        counts

/-- The values computed before the row loop (lines 15-33), with the two
constants of `defs.hpp`. -/
structure Locals where
  maxiter : Nat
  re_size : Nat
  im_min : T
  im_step : T
  re_step_v : __m256
  max_len_sq_v : __m256
  inv_maxiter : __m256
  re_min_v : __m256

/-- Lines 43-65: the accumulator `counts` of one lane group on leaving the
iteration loop. -/
def group_counts (L : Locals) (re_coord im_coord : __m256) : __m256 :=
  iter_loop L.max_len_sq_v L.inv_maxiter re_coord im_coord L.maxiter
    re_coord im_coord _mm256_setzero_ps

/-- The column loop of lines 42-72, entered with the current `px`. -/
def col_loop (L : Locals) (py : Nat) (im_coord : __m256) (px : Nat) (re_coord : __m256)
    (result : Heap) : Heap :=
  if px < L.re_size then
    let counts := group_counts L re_coord im_coord
    let result := _mm256_store_ps result (py * L.re_size + px) counts
    col_loop L py im_coord (px + packing) (_mm256_add_ps re_coord L.re_step_v) result
  else result
termination_by L.re_size - px
decreasing_by simp only [packing]; omega

/-- The body of the row loop (lines 38-72) for row `py`. -/
def row_body (L : Locals) (py : Nat) (result : Heap) : Heap :=
  let im_coord := _mm256_set1_ps (L.im_min + (py : T) * L.im_step)
  col_loop L py im_coord 0 L.re_min_v result

/-- The row loop, its bodies executed in the given order. -/
def run_rows (L : Locals) (order : List Nat) (result : Heap) : Heap :=
  order.foldl (fun r py => row_body L py r) result

/-- Lines 15-33. -/
def locals (maxiter : Nat) (max_len_sq : T) (re_min re_max : T) (re_size : Nat)
    (im_min im_max : T) (im_size : Nat) : Locals :=
  let re_step : T := (re_max - re_min) / (re_size : T)
  let im_step : T := (im_max - im_min) / (im_size : T)
  let re_step_v := _mm256_set1_ps (re_step * (packing : T))
  let max_len_sq_v := _mm256_set1_ps max_len_sq
  let inv_maxiter := _mm256_set1_ps (1 / (maxiter : T))
  let shift := _mm256_set_ps
    (7 * re_step) (6 * re_step) (5 * re_step) (4 * re_step)
    (3 * re_step) (2 * re_step) (1 * re_step) (0 * re_step)
  let re_min_v := _mm256_add_ps (_mm256_set1_ps re_min) shift
  { maxiter := maxiter, re_size := re_size, im_min := im_min, im_step := im_step,
    re_step_v := re_step_v, max_len_sq_v := max_len_sq_v, inv_maxiter := inv_maxiter,
    re_min_v := re_min_v }

/-- The function `mandelbrot_intrinsics`. The rows run in increasing order
unless `task_parallel`, where they run in the order `schedule`. -/
def mandelbrot_intrinsics (maxiter : Nat) (max_len_sq : T)
    (re_min re_max : T) (re_size : Nat) (im_min im_max : T) (im_size : Nat)
    (task_parallel : Bool) (schedule : List Nat) : Heap :=
  let result := aligned_alloc (sizeof_T * packing) (re_size * im_size * sizeof_T)
  let L := locals maxiter max_len_sq re_min re_max re_size im_min im_max im_size
  run_rows L (if task_parallel then schedule else List.range im_size) result

/-! ## Derived quantities of the kernel -/

/-- The register `re_coord` on entry to the group `g` places after the current
one: `g` executions of line 71. -/
def advance (step : __m256) (g : Nat) (re_coord : __m256) : __m256 :=
  (fun rc => _mm256_add_ps rc step)^[g] re_coord

/-- The value the kernel computes for pixel (`py`, `px`): lane `px % 8` of the
accumulator of group `px / 8` of row `py`. -/
def pixel_value (L : Locals) (py px : Nat) : ℚ :=
  group_counts L (advance L.re_step_v (px / 8) L.re_min_v)
    (_mm256_set1_ps (L.im_min + (py : ℚ) * L.im_step)) ⟨px % 8, Nat.mod_lt _ (by decide)⟩

/-- The element offsets of the stores of row `py`. -/
def row_stores (L : Locals) (py : Nat) : List Nat :=
  (List.range (L.re_size / 8)).map (fun g => py * L.re_size + 8 * g)

/-! ## The escape-time recurrence of the specification -/

/-- The orbit of the specification: `z_0 = c`, `z_{k+1} = z_k ^ 2 + c`, for
`c = cr + ci * I`, as pairs (real part, imaginary part). -/
def orbit (cr ci : ℚ) : Nat → ℚ × ℚ
  | 0 => (cr, ci)
  | k + 1 =>
    ((orbit cr ci k).1 ^ 2 - (orbit cr ci k).2 ^ 2 + cr,
      2 * (orbit cr ci k).1 * (orbit cr ci k).2 + ci)

/-- The squared modulus `|z|^2`. -/
def norm_sq (z : ℚ × ℚ) : ℚ := z.1 ^ 2 + z.2 ^ 2

/-- The point `c` has not escaped at step `k`: `|z_k|^2 < thr`. -/
def bounded (thr cr ci : ℚ) (k : Nat) : Prop := norm_sq (orbit cr ci k) < thr

instance (thr cr ci : ℚ) : DecidablePred (bounded thr cr ci) :=
  fun k => inferInstanceAs (Decidable (norm_sq (orbit cr ci k) < thr))

/-- The sample coordinate of pixel (`py`, `px`) in the specification. -/
def sample (re_min re_max : ℚ) (re_size : Nat) (im_min im_max : ℚ) (im_size : Nat)
    (py px : Nat) : ℚ × ℚ :=
  (re_min + (px : ℚ) * ((re_max - re_min) / (re_size : ℚ)),
    im_min + (py : ℚ) * ((im_max - im_min) / (im_size : ℚ)))

/-! ## The iteration loop, one iteration at a time -/

/-- The registers `re`, `im`, `counts` carried by the iteration loop. -/
structure Regs where
  re : __m256
  im : __m256
  counts : __m256

/-- Lines 49-55: the mask `not_diverged` of the iteration entered with the
registers `s`. -/
def not_diverged (max_len_sq_v : __m256) (s : Regs) : mask256 :=
  _mm256_cmp_ps_LT_OS
    (_mm256_add_ps (_mm256_mul_ps s.re s.re) (_mm256_mul_ps s.im s.im)) max_len_sq_v

/-- Lines 49-57 and 63-64: the registers after the iteration entered with `s`,
when the loop is not left at line 61. -/
def iter_body (max_len_sq_v inv_maxiter re_coord im_coord : __m256) (s : Regs) : Regs :=
  { re := _mm256_add_ps
      (_mm256_sub_ps (_mm256_mul_ps s.re s.re) (_mm256_mul_ps s.im s.im)) re_coord
    im := _mm256_add_ps
      (_mm256_add_ps (_mm256_mul_ps s.re s.im) (_mm256_mul_ps s.re s.im)) im_coord
    counts := _mm256_add_ps s.counts
      (_mm256_and_ps inv_maxiter (not_diverged max_len_sq_v s)) }

/-- The registers of a lane group on entry to iteration `j`, the loop not left
before. -/
def regs_at (L : Locals) (re_coord im_coord : __m256) (j : Nat) : Regs :=
  (iter_body L.max_len_sq_v L.inv_maxiter re_coord im_coord)^[j]
    { re := re_coord, im := im_coord, counts := _mm256_setzero_ps }

/-! ## The kernel with the early exit removed -/

/-- The loop of lines 48-65 with line 61 (`if (!mask) break;`) removed. -/
def iter_loop_no_break (max_len_sq_v inv_maxiter re_coord im_coord : __m256) :
    Nat → __m256 → __m256 → __m256 → __m256
  | 0, _, _, counts => counts
  | n + 1, re, im, counts =>
    let re_sq := _mm256_mul_ps re re
    let im_sq := _mm256_mul_ps im im
    let re_im := _mm256_mul_ps re im
    let len_sq := _mm256_add_ps re_sq im_sq
    let not_diverged := _mm256_cmp_ps_LT_OS len_sq max_len_sq_v
    let tmp := _mm256_and_ps inv_maxiter not_diverged
    let counts := _mm256_add_ps counts tmp
    iter_loop_no_break max_len_sq_v inv_maxiter re_coord im_coord n
      (_mm256_add_ps (_mm256_sub_ps re_sq im_sq) re_coord)
      (_mm256_add_ps (_mm256_add_ps re_im re_im) im_coord)
      counts

/-- The accumulator of one lane group, no early exit. -/
def group_counts_no_break (L : Locals) (re_coord im_coord : __m256) : __m256 :=
  iter_loop_no_break L.max_len_sq_v L.inv_maxiter re_coord im_coord L.maxiter
    re_coord im_coord _mm256_setzero_ps

/-- The column loop, no early exit in the iteration loop. -/
def col_loop_no_break (L : Locals) (py : Nat) (im_coord : __m256) (px : Nat)
    (re_coord : __m256) (result : Heap) : Heap :=
  if px < L.re_size then
    let counts := group_counts_no_break L re_coord im_coord
    let result := _mm256_store_ps result (py * L.re_size + px) counts
    col_loop_no_break L py im_coord (px + packing) (_mm256_add_ps re_coord L.re_step_v) result
  else result
termination_by L.re_size - px
decreasing_by simp only [packing]; omega

/-- The body of the row loop, no early exit in the iteration loop. -/
def row_body_no_break (L : Locals) (py : Nat) (result : Heap) : Heap :=
  let im_coord := _mm256_set1_ps (L.im_min + (py : T) * L.im_step)
  col_loop_no_break L py im_coord 0 L.re_min_v result

/-- The function `mandelbrot_intrinsics` with line 61 removed. -/
def mandelbrot_intrinsics_no_break (maxiter : Nat) (max_len_sq : T)
    (re_min re_max : T) (re_size : Nat) (im_min im_max : T) (im_size : Nat)
    (task_parallel : Bool) (schedule : List Nat) : Heap :=
  let result := aligned_alloc (sizeof_T * packing) (re_size * im_size * sizeof_T)
  let L := locals maxiter max_len_sq re_min re_max re_size im_min im_max im_size
  (if task_parallel then schedule else List.range im_size).foldl
    (fun r py => row_body_no_break L py r) result

/-! ## The batch of size 1 of the specification -/

/-- The iteration loop of the specification for a batch of size 1: the same
operations on one pixel, the loop left as soon as that pixel has diverged. -/
def batch1_loop (max_len_sq inv_maxiter re_coord im_coord : T) : Nat → T → T → T → T
  | 0, _, _, counts => counts
  | n + 1, re, im, counts =>
    let re_sq := re * re
    let im_sq := im * im
    let re_im := re * im
    let len_sq := re_sq + im_sq
    let not_diverged : Bool := decide (len_sq < max_len_sq)
    let tmp := if not_diverged then inv_maxiter else 0
    let counts := counts + tmp
    if not_diverged = false then counts
    else
      batch1_loop max_len_sq inv_maxiter re_coord im_coord n
        (re_sq - im_sq + re_coord) (re_im + re_im + im_coord) counts

/-- The value of the pixel with coordinate (`re_coord`, `im_coord`) evaluated
alone, in a batch of size 1. -/
def batch1_counts (maxiter : Nat) (max_len_sq re_coord im_coord : T) : T :=
  batch1_loop max_len_sq (1 / (maxiter : T)) re_coord im_coord maxiter re_coord im_coord 0

/-! ## The stores of a row of any length -/

/-- The element offsets of the stores of row `py`, one for each of the
`⌈re_size / 8⌉` lane groups of the row. -/
def group_offsets (L : Locals) (py : Nat) : List Nat :=
  (List.range ((L.re_size + 7) / 8)).map (fun g => py * L.re_size + 8 * g)

/-! ## The aligned store and its fault -/

/-- How a run ends: it returns with the heap `result`, or the aligned store to
`&result[idx]` raises a general-protection fault, `result` being the heap at
that moment. -/
inductive Outcome where
  | returned (result : Heap)
  | fault (result : Heap) (idx : Nat)

/-- The intrinsic `_mm256_store_ps(&result[idx], v)` with its alignment
requirement. The block is 32-byte aligned (line 12), so the address
`&result[idx]` is 32-byte aligned exactly when `idx * sizeof(T)` is a multiple
of 32; at any other address the store faults and writes nothing. -/
def _mm256_store_ps_checked (result : Heap) (idx : Nat) (v : __m256) : Outcome :=
  if (idx * sizeof_T) % 32 = 0 then Outcome.returned (_mm256_store_ps result idx v)
  else Outcome.fault result idx

/-- The column loop of lines 42-72 with the fault of the store of line 68. -/
def col_loop_checked (L : Locals) (py : Nat) (im_coord : __m256) (px : Nat)
    (re_coord : __m256) (result : Heap) : Outcome :=
  if px < L.re_size then
    let counts := group_counts L re_coord im_coord
    match _mm256_store_ps_checked result (py * L.re_size + px) counts with
    | Outcome.returned result =>
      col_loop_checked L py im_coord (px + packing) (_mm256_add_ps re_coord L.re_step_v) result
    | Outcome.fault r idx => Outcome.fault r idx
  else Outcome.returned result
termination_by L.re_size - px
decreasing_by simp only [packing]; omega

/-- The body of the row loop (lines 38-72) with the fault of the store. -/
def row_body_checked (L : Locals) (py : Nat) (result : Heap) : Outcome :=
  let im_coord := _mm256_set1_ps (L.im_min + (py : T) * L.im_step)
  col_loop_checked L py im_coord 0 L.re_min_v result

/-- The row loop, its bodies executed in the given order until one faults. -/
def run_rows_checked (L : Locals) : List Nat → Heap → Outcome
  | [], result => Outcome.returned result
  | py :: order, result =>
    match row_body_checked L py result with
    | Outcome.returned result => run_rows_checked L order result
    | Outcome.fault r idx => Outcome.fault r idx

/-- The function `mandelbrot_intrinsics` with the fault of the store of line
68: it returns the buffer, or faults at the first store to an address that is
not 32-byte aligned. -/
def mandelbrot_intrinsics_checked (maxiter : Nat) (max_len_sq : T)
    (re_min re_max : T) (re_size : Nat) (im_min im_max : T) (im_size : Nat)
    (task_parallel : Bool) (schedule : List Nat) : Outcome :=
  let result := aligned_alloc (sizeof_T * packing) (re_size * im_size * sizeof_T)
  let L := locals maxiter max_len_sq re_min re_max re_size im_min im_max im_size
  run_rows_checked L (if task_parallel then schedule else List.range im_size) result

/-! ## Lemmas on the iteration loop -/

theorem movemask_eq_zero (m : mask256) :
    _mm256_movemask_ps m = 0 ↔ ∀ i, m i = false := by
  unfold _mm256_movemask_ps
  rw [Finset.sum_eq_zero_iff]
  constructor
  · intro h i
    have hi := h i (Finset.mem_univ i)
    by_contra hc
    simp only [Bool.not_eq_false] at hc
    rw [if_pos hc] at hi
    exact absurd hi (by positivity)
  · intro h i _
    simp [h i]

/-- One lane of the iteration loop: entered at iteration `j` with the lanes on
their orbits and the accumulator holding the credit of the iterations before
`j`, the loop leaves after iteration `J - 1` with the credit of the iterations
before `J`; it leaves early only where every lane has escaped. -/
theorem iter_loop_spec (thr inv rc ic : __m256) :
    ∀ (n j : Nat) (re im counts : __m256),
      (∀ i, re i = (orbit (rc i) (ic i) j).1) →
      (∀ i, im i = (orbit (rc i) (ic i) j).2) →
      (∀ i, counts i = inv i * (Nat.count (bounded (thr i) (rc i) (ic i)) j : ℚ)) →
      ∃ J, j ≤ J ∧ J ≤ j + n ∧
        (∀ i, iter_loop thr inv rc ic n re im counts i
            = inv i * (Nat.count (bounded (thr i) (rc i) (ic i)) J : ℚ)) ∧
        (J = j + n ∨ (j < J ∧ ∀ i, ¬ bounded (thr i) (rc i) (ic i) (J - 1))) := by
  intro n
  induction n with
  | zero =>
    intro j re im counts _ _ hc
    exact ⟨j, le_refl _, le_refl _, fun i => by simpa [iter_loop] using hc i, Or.inl rfl⟩
  | succ n ih =>
    intro j re im counts hre him hc
    have hmask : ∀ i, _mm256_cmp_ps_LT_OS
        (_mm256_add_ps (_mm256_mul_ps re re) (_mm256_mul_ps im im)) thr i
          = decide (bounded (thr i) (rc i) (ic i) j) := by
      intro i
      simp only [_mm256_cmp_ps_LT_OS, _mm256_add_ps, _mm256_mul_ps, bounded, norm_sq,
        hre i, him i, pow_two]
    have hcounts : ∀ i, _mm256_add_ps counts (_mm256_and_ps inv
        (_mm256_cmp_ps_LT_OS (_mm256_add_ps (_mm256_mul_ps re re) (_mm256_mul_ps im im)) thr)) i
          = inv i * (Nat.count (bounded (thr i) (rc i) (ic i)) (j + 1) : ℚ) := by
      intro i
      simp only [_mm256_add_ps, _mm256_and_ps, hmask i, hc i, Nat.count_succ]
      by_cases hb : bounded (thr i) (rc i) (ic i) j
      · simp [hb]; ring
      · simp [hb]
    rw [iter_loop]
    split
    · rename_i hz
      rw [movemask_eq_zero] at hz
      refine ⟨j + 1, by omega, by omega, hcounts, Or.inr ⟨by omega, ?_⟩⟩
      intro i
      have := hz i
      rw [hmask i] at this
      simpa using this
    · obtain ⟨J, h1, h2, h3, h4⟩ := ih (j + 1)
        (_mm256_add_ps (_mm256_sub_ps (_mm256_mul_ps re re) (_mm256_mul_ps im im)) rc)
        (_mm256_add_ps (_mm256_add_ps (_mm256_mul_ps re im) (_mm256_mul_ps re im)) ic)
        _
        (fun i => by
          simp only [_mm256_add_ps, _mm256_sub_ps, _mm256_mul_ps, orbit, hre i, him i, pow_two])
        (fun i => by
          simp only [_mm256_add_ps, _mm256_mul_ps, orbit, hre i, him i]; ring)
        hcounts
      refine ⟨J, by omega, by omega, h3, ?_⟩
      rcases h4 with h4 | ⟨h4, h5⟩
      · left; omega
      · right; exact ⟨by omega, h5⟩

/-- The accumulator of a lane group: lane `i` holds `inv_maxiter` times the
number of iterations before `J` at which its own point was bounded, where the
loop ran `J` iterations and left early only with every lane escaped. -/
theorem group_counts_spec (L : Locals) (rc ic : __m256) :
    ∃ J, J ≤ L.maxiter ∧
      (∀ i, group_counts L rc ic i
          = L.inv_maxiter i * (Nat.count (bounded (L.max_len_sq_v i) (rc i) (ic i)) J : ℚ)) ∧
      (J = L.maxiter ∨ (0 < J ∧ ∀ i, ¬ bounded (L.max_len_sq_v i) (rc i) (ic i) (J - 1))) := by
  obtain ⟨J, _, h2, h3, h4⟩ := iter_loop_spec L.max_len_sq_v L.inv_maxiter rc ic L.maxiter 0
    rc ic _mm256_setzero_ps (fun i => rfl) (fun i => rfl)
    (fun i => by simp [_mm256_setzero_ps])
  refine ⟨J, by omega, h3, ?_⟩
  rcases h4 with h4 | h4
  · left; omega
  · right; exact h4

/-! ## Counting the bounded iterations -/

/-- For a predicate that stays false once false, the count of its true places
below `J` is the length of its initial true segment, cut at `J`. -/
theorem count_initial_segment (p : Nat → Prop) [DecidablePred p]
    (hp : ∀ k, ¬ p k → ¬ p (k + 1)) (J : Nat) :
    (∀ k, k < Nat.count p J → p k) ∧ (Nat.count p J < J → ¬ p (Nat.count p J)) := by
  induction J with
  | zero => simp
  | succ J ih =>
    obtain ⟨ih1, ih2⟩ := ih
    have hle : Nat.count p J ≤ J := Nat.count_le p
    by_cases hJ : p J
    · have hfull : Nat.count p J = J := by
        by_contra hne
        have hlt : Nat.count p J < J := lt_of_le_of_ne hle hne
        have hdown : ∀ d, ¬ p (Nat.count p J + d) := by
          intro d
          induction d with
          | zero => exact ih2 hlt
          | succ d ihd => exact hp _ ihd
        have := hdown (J - Nat.count p J)
        rw [Nat.add_sub_cancel' hle] at this
        exact this hJ
      rw [Nat.count_succ, if_pos hJ, hfull]
      refine ⟨fun k hk => ?_, fun h => absurd h (lt_irrefl _)⟩
      rcases Nat.lt_succ_iff_lt_or_eq.mp hk with h | h
      · exact ih1 k (by rw [hfull]; exact h)
      · exact h ▸ hJ
    · rw [Nat.count_succ, if_neg hJ, Nat.add_zero]
      refine ⟨ih1, fun _ => ?_⟩
      rcases Nat.lt_or_ge (Nat.count p J) J with h | h
      · exact ih2 h
      · have : Nat.count p J = J := le_antisymm hle h
        rw [this]; exact hJ

/-! ## Escape is final for a threshold of at least 4 -/

theorem escape_key (a b t : ℚ) (ha : 4 ≤ a) (hb : b ≤ a)
    (ht : t ^ 2 ≤ a ^ 2 * b) : a ≤ a ^ 2 + 2 * t + b := by
  by_contra hlt
  push_neg at hlt
  have h1 : 0 ≤ a ^ 2 - a + b + 2 * t → False := fun h => by linarith
  have hs : 0 < a ^ 2 - a + b := by
    have h0 : 0 ≤ b := by
      by_contra hb0
      push_neg at hb0
      have : a ^ 2 * b < 0 := mul_neg_of_pos_of_neg (by positivity) hb0
      have : 0 ≤ t ^ 2 := sq_nonneg t
      linarith
    nlinarith
  have h2 : (a ^ 2 - a + b) ^ 2 < (2 * t) ^ 2 := by
    have : a ^ 2 - a + b < -(2 * t) := by linarith
    nlinarith
  have h3 : (a ^ 2 - a + b) ^ 2 - 4 * (a ^ 2 * b)
      = (a - b) * (2 * a ^ 2 + a - b) + a ^ 3 * (a - 4) := by ring
  have h4 : 0 ≤ (a - b) * (2 * a ^ 2 + a - b) :=
    mul_nonneg (by linarith) (by nlinarith)
  have h5 : 0 ≤ a ^ 3 * (a - 4) := mul_nonneg (by positivity) (by linarith)
  nlinarith

/-- One step of the recurrence does not decrease the modulus of a point of
squared modulus at least 4 that is at least as far from 0 as `c`. -/
theorem escape_step (x y cr ci : ℚ) (ha : 4 ≤ x ^ 2 + y ^ 2)
    (hb : cr ^ 2 + ci ^ 2 ≤ x ^ 2 + y ^ 2) :
    x ^ 2 + y ^ 2 ≤ (x ^ 2 - y ^ 2 + cr) ^ 2 + (2 * x * y + ci) ^ 2 := by
  have hcs : ((x ^ 2 - y ^ 2) * cr + 2 * x * y * ci) ^ 2
      ≤ (x ^ 2 + y ^ 2) ^ 2 * (cr ^ 2 + ci ^ 2) := by
    have : (x ^ 2 + y ^ 2) ^ 2 * (cr ^ 2 + ci ^ 2)
        - ((x ^ 2 - y ^ 2) * cr + 2 * x * y * ci) ^ 2
        = ((x ^ 2 - y ^ 2) * ci - 2 * x * y * cr) ^ 2 := by ring
    have h0 := sq_nonneg ((x ^ 2 - y ^ 2) * ci - 2 * x * y * cr)
    linarith
  have := escape_key (x ^ 2 + y ^ 2) (cr ^ 2 + ci ^ 2)
    ((x ^ 2 - y ^ 2) * cr + 2 * x * y * ci) ha hb hcs
  have e : (x ^ 2 - y ^ 2 + cr) ^ 2 + (2 * x * y + ci) ^ 2
      = (x ^ 2 + y ^ 2) ^ 2 + 2 * ((x ^ 2 - y ^ 2) * cr + 2 * x * y * ci)
        + (cr ^ 2 + ci ^ 2) := by ring
  rw [e]; exact this

/-- Beyond both the threshold and `|c|`, the orbit stays there. -/
theorem far_step (thr cr ci : ℚ) (hthr : 4 ≤ thr) (k : Nat)
    (h : thr ≤ norm_sq (orbit cr ci k) ∧ norm_sq (cr, ci) ≤ norm_sq (orbit cr ci k)) :
    thr ≤ norm_sq (orbit cr ci (k + 1))
      ∧ norm_sq (cr, ci) ≤ norm_sq (orbit cr ci (k + 1)) := by
  obtain ⟨h1, h2⟩ := h
  have := escape_step (orbit cr ci k).1 (orbit cr ci k).2 cr ci
    (by simp only [norm_sq] at h1; linarith) (by simpa only [norm_sq] using h2)
  simp only [norm_sq, orbit] at *
  constructor <;> linarith

/-- With a threshold of at least 4 a point that has escaped never counts as
bounded again. -/
theorem escaped_stays (thr cr ci : ℚ) (hthr : 4 ≤ thr) (k : Nat)
    (h : ¬ bounded thr cr ci k) : ¬ bounded thr cr ci (k + 1) := by
  simp only [bounded, not_lt] at *
  by_cases hc : thr ≤ norm_sq (cr, ci)
  · have hall : ∀ m, thr ≤ norm_sq (orbit cr ci m)
        ∧ norm_sq (cr, ci) ≤ norm_sq (orbit cr ci m) := by
      intro m
      induction m with
      | zero => exact ⟨by simpa only [orbit] using hc, by simp only [orbit, le_refl]⟩
      | succ m ih => exact far_step thr cr ci hthr m ih
    exact (hall (k + 1)).1
  · push_neg at hc
    exact (far_step thr cr ci hthr k ⟨h, by linarith⟩).1

/-! ## The value of one lane -/

/-- Every lane of the accumulator lies in `[0, 1]`. -/
theorem lane_range (L : Locals) (rc ic : __m256) (i : Fin 8)
    (hinv : L.inv_maxiter i = 1 / (L.maxiter : ℚ)) :
    0 ≤ group_counts L rc ic i ∧ group_counts L rc ic i ≤ 1 := by
  obtain ⟨J, hJ, hval, _⟩ := group_counts_spec L rc ic
  rw [hval i, hinv]
  have hcJ : Nat.count (bounded (L.max_len_sq_v i) (rc i) (ic i)) J ≤ L.maxiter :=
    le_trans (Nat.count_le _) hJ
  have hc : (Nat.count (bounded (L.max_len_sq_v i) (rc i) (ic i)) J : ℚ) ≤ (L.maxiter : ℚ) := by
    exact_mod_cast hcJ
  have h0 : (0 : ℚ) ≤ (Nat.count (bounded (L.max_len_sq_v i) (rc i) (ic i)) J : ℚ) :=
    Nat.cast_nonneg _
  have hm : (0 : ℚ) ≤ (L.maxiter : ℚ) := Nat.cast_nonneg _
  constructor
  · positivity
  · rw [one_div, inv_mul_eq_div]
    exact div_le_one_of_le₀ hc hm

/-- A lane holds 1 exactly when its point is bounded at each of the `maxiter`
iterations. -/
theorem lane_one_iff (L : Locals) (rc ic : __m256) (i : Fin 8) (hmax : 0 < L.maxiter)
    (hinv : L.inv_maxiter i = 1 / (L.maxiter : ℚ)) :
    group_counts L rc ic i = 1
      ↔ ∀ k, k < L.maxiter → bounded (L.max_len_sq_v i) (rc i) (ic i) k := by
  obtain ⟨J, hJ, hval, hstop⟩ := group_counts_spec L rc ic
  have hm : (0 : ℚ) < (L.maxiter : ℚ) := by exact_mod_cast hmax
  rw [hval i, hinv, one_div, inv_mul_eq_div, div_eq_one_iff_eq (ne_of_gt hm)]
  constructor
  · intro h
    have hc : Nat.count (bounded (L.max_len_sq_v i) (rc i) (ic i)) J = L.maxiter := by
      exact_mod_cast h
    have hJm : J = L.maxiter :=
      le_antisymm hJ (hc ▸ Nat.count_le _)
    rw [hJm] at hc
    exact Nat.count_iff_forall.mp hc
  · intro h
    have hJm : J = L.maxiter := by
      rcases hstop with h1 | ⟨h1, h2⟩
      · exact h1
      · exact absurd (h (J - 1) (by omega)) (h2 i)
    rw [hJm]
    exact_mod_cast Nat.count_iff_forall.mpr h

/-- With a threshold of at least 4 a lane holds `n / maxiter`, `n` the first
iteration at which its point is not bounded (`maxiter` if there is none). -/
theorem lane_escape (L : Locals) (rc ic : __m256) (i : Fin 8)
    (hinv : L.inv_maxiter i = 1 / (L.maxiter : ℚ)) (hthr : 4 ≤ L.max_len_sq_v i) :
    ∃ n, n ≤ L.maxiter ∧ group_counts L rc ic i = (n : ℚ) / (L.maxiter : ℚ)
      ∧ (∀ k, k < n → bounded (L.max_len_sq_v i) (rc i) (ic i) k)
      ∧ (n < L.maxiter → ¬ bounded (L.max_len_sq_v i) (rc i) (ic i) n) := by
  obtain ⟨J, hJ, hval, hstop⟩ := group_counts_spec L rc ic
  obtain ⟨hp1, hp2⟩ := count_initial_segment (bounded (L.max_len_sq_v i) (rc i) (ic i))
    (escaped_stays (L.max_len_sq_v i) (rc i) (ic i) hthr) J
  refine ⟨Nat.count (bounded (L.max_len_sq_v i) (rc i) (ic i)) J,
    le_trans (Nat.count_le _) hJ, ?_, hp1, ?_⟩
  · rw [hval i, hinv, one_div, inv_mul_eq_div]
  · intro hlt
    rcases Nat.lt_or_ge (Nat.count (bounded (L.max_len_sq_v i) (rc i) (ic i)) J) J with h | h
    · exact hp2 h
    · have hfull : Nat.count (bounded (L.max_len_sq_v i) (rc i) (ic i)) J = J :=
        le_antisymm (Nat.count_le _) h
      rcases hstop with h1 | ⟨h1, h2⟩
      · omega
      · exact absurd (hp1 (J - 1) (by omega)) (h2 i)

/-- The first escape of a point determines `n` of `lane_escape`. -/
theorem first_escape_unique (p : Nat → Prop) (m n n' : Nat)
    (hn : n ≤ m) (h1 : ∀ k, k < n → p k) (h2 : n < m → ¬ p n)
    (hn' : n' ≤ m) (h1' : ∀ k, k < n' → p k) (h2' : n' < m → ¬ p n') : n = n' := by
  rcases Nat.lt_trichotomy n n' with h | h | h
  · exact absurd (h1' n h) (h2 (by omega))
  · exact h
  · exact absurd (h1 n' h) (h2' (by omega))

/-! ## The column loop and the row loop -/

theorem store_cell_in (h : Heap) (idx : Nat) (v : __m256) (i : Fin 8) :
    (_mm256_store_ps h idx v).cell (idx + i.val) = some (v i) := by
  have hi := i.isLt
  simp only [_mm256_store_ps]
  rw [dif_pos ⟨by omega, by omega⟩]
  congr 2
  apply Fin.ext
  simp

theorem store_cell_out (h : Heap) (idx : Nat) (v : __m256) (j : Nat)
    (hj : j < idx ∨ idx + 8 ≤ j) : (_mm256_store_ps h idx v).cell j = h.cell j := by
  simp only [_mm256_store_ps]
  rw [dif_neg (by omega)]

/-- The column loop entered at `px` with `G` groups to go: group `g` stores its
accumulator at `py * re_size + px + 8 * g`, nothing else changes. -/
theorem col_loop_spec (L : Locals) (py : Nat) (ic : __m256) :
    ∀ (G px : Nat) (rc : __m256) (h : Heap), (L.re_size - px + 7) / 8 = G →
      (∀ (g : Nat) (i : Fin 8), g < G →
        (col_loop L py ic px rc h).cell (py * L.re_size + px + 8 * g + i.val)
          = some (group_counts L (advance L.re_step_v g rc) ic i)) ∧
      (∀ j, (j < py * L.re_size + px ∨ py * L.re_size + px + 8 * G ≤ j) →
        (col_loop L py ic px rc h).cell j = h.cell j) ∧
      (col_loop L py ic px rc h).stores
        = h.stores ++ (List.range G).map (fun g => py * L.re_size + px + 8 * g) := by
  intro G
  induction G with
  | zero =>
    intro px rc h hG
    have hpx : ¬ px < L.re_size := by omega
    rw [col_loop, if_neg hpx]
    exact ⟨fun g i hg => absurd hg (Nat.not_lt_zero g), fun j _ => rfl, by simp⟩
  | succ G ih =>
    intro px rc h hG
    have hpx : px < L.re_size := by omega
    rw [col_loop, if_pos hpx]
    simp only [packing]
    obtain ⟨ih1, ih2, ih3⟩ := ih (px + 8) (_mm256_add_ps rc L.re_step_v)
      (_mm256_store_ps h (py * L.re_size + px) (group_counts L rc ic)) (by omega)
    refine ⟨?_, ?_, ?_⟩
    · intro g i hg
      cases g with
      | zero =>
        have hi := i.isLt
        rw [ih2 _ (Or.inl (by omega)), Nat.mul_zero, Nat.add_zero, store_cell_in]
        rfl
      | succ g =>
        have := ih1 g i (by omega)
        have e : py * L.re_size + (px + 8) + 8 * g + i.val
            = py * L.re_size + px + 8 * (g + 1) + i.val := by ring
        rw [e] at this
        rw [this]
        rfl
    · intro j hj
      rw [ih2 j (by omega), store_cell_out _ _ _ _ (by omega)]
    · rw [ih3]
      simp only [_mm256_store_ps, List.append_assoc, List.singleton_append]
      rw [List.range_succ_eq_map, List.map_cons, List.map_map]
      congr 2
      apply List.map_congr_left
      intro g _
      simp only [Function.comp, Nat.succ_eq_add_one]
      ring

/-- A row body, for a row length that is a multiple of 8: it fills the row
`py` of the buffer and nothing else. -/
theorem row_body_spec (L : Locals) (h8 : 8 ∣ L.re_size) (py : Nat) (h : Heap) :
    (∀ px, px < L.re_size →
      (row_body L py h).cell (py * L.re_size + px) = some (pixel_value L py px)) ∧
    (∀ j, (j < py * L.re_size ∨ (py + 1) * L.re_size ≤ j) →
      (row_body L py h).cell j = h.cell j) ∧
    (row_body L py h).stores = h.stores ++ row_stores L py := by
  obtain ⟨G, hG⟩ := h8
  obtain ⟨h1, h2, h3⟩ := col_loop_spec L py
    (_mm256_set1_ps (L.im_min + (py : ℚ) * L.im_step)) G 0 L.re_min_v h (by omega)
  refine ⟨?_, ?_, ?_⟩
  · intro px hpx
    have := h1 (px / 8) ⟨px % 8, Nat.mod_lt _ (by decide)⟩ (by omega)
    simp only [Nat.add_zero] at this
    have e : py * L.re_size + 8 * (px / 8) + px % 8 = py * L.re_size + px := by
      have := Nat.div_add_mod px 8
      omega
    rw [e] at this
    exact this
  · intro j hj
    apply h2 j
    have e : (py + 1) * L.re_size = py * L.re_size + 8 * G := by rw [hG]; ring
    omega
  · have e : L.re_size / 8 = G := by omega
    simp only [row_body, row_stores, e]
    simpa only [Nat.add_zero] using h3

theorem run_rows_append (L : Locals) (order : List Nat) (py : Nat) (h : Heap) :
    run_rows L (order ++ [py]) h = row_body L py (run_rows L order h) := by
  simp [run_rows, List.foldl_append]

theorem row_disjoint (R py py' px : Nat) (hne : py' ≠ py) (hpx : px < R) :
    py' * R + px < py * R ∨ (py + 1) * R ≤ py' * R + px := by
  rcases Nat.lt_or_gt_of_ne hne with hlt | hgt
  · left
    have : (py' + 1) * R ≤ py * R := Nat.mul_le_mul_right R hlt
    have e : (py' + 1) * R = py' * R + R := by ring
    omega
  · right
    have : (py + 1) * R ≤ py' * R := Nat.mul_le_mul_right R hgt
    omega

/-- The row loop in any order, for a row length that is a multiple of 8: the
rows executed are filled, every other element is left as it was. -/
theorem run_rows_spec (L : Locals) (h8 : 8 ∣ L.re_size) (h : Heap) :
    ∀ order : List Nat,
      (∀ py px, py ∈ order → px < L.re_size →
        (run_rows L order h).cell (py * L.re_size + px) = some (pixel_value L py px)) ∧
      (∀ j, (∀ py, py ∈ order → j < py * L.re_size ∨ (py + 1) * L.re_size ≤ j) →
        (run_rows L order h).cell j = h.cell j) ∧
      (run_rows L order h).stores = h.stores ++ order.flatMap (row_stores L) := by
  intro order
  induction order using List.reverseRecOn with
  | nil => simp [run_rows]
  | append_singleton order py ih =>
    obtain ⟨ih1, ih2, ih3⟩ := ih
    obtain ⟨r1, r2, r3⟩ := row_body_spec L h8 py (run_rows L order h)
    rw [run_rows_append]
    refine ⟨?_, ?_, ?_⟩
    · intro py' px hmem hpx
      by_cases hpy : py' = py
      · subst hpy; exact r1 px hpx
      · rw [r2 _ (row_disjoint L.re_size py py' px hpy hpx)]
        rcases List.mem_append.mp hmem with hm | hm
        · exact ih1 py' px hm hpx
        · exact absurd (List.mem_singleton.mp hm) hpy
    · intro j hj
      rw [r2 j (hj py (by simp))]
      exact ih2 j (fun py' hm => hj py' (List.mem_append_left _ hm))
    · rw [r3, ih3]
      simp [List.flatMap_append]

/-! ## The whole kernel -/

theorem advance_apply (step : __m256) (g : Nat) (rc : __m256) (i : Fin 8) :
    advance step g rc i = rc i + (g : ℚ) * step i := by
  induction g generalizing rc with
  | zero => simp [advance]
  | succ g ih =>
    have e : advance step (g + 1) rc = advance step g (_mm256_add_ps rc step) := by
      simp only [advance, Function.iterate_succ_apply]
    rw [e, ih]
    simp only [_mm256_add_ps]
    push_cast
    ring

theorem re_min_v_apply (maxiter : Nat) (max_len_sq re_min re_max : ℚ) (re_size : Nat)
    (im_min im_max : ℚ) (im_size : Nat) (i : Fin 8) :
    (locals maxiter max_len_sq re_min re_max re_size im_min im_max im_size).re_min_v i
      = re_min + (i.val : ℚ) * ((re_max - re_min) / (re_size : ℚ)) := by
  simp only [locals, _mm256_add_ps, _mm256_set1_ps, _mm256_set_ps]
  fin_cases i <;> simp <;> rfl

/-- The coordinates the kernel hands to the lane of pixel (`py`, `px`) are the
sample coordinates of the specification. -/
theorem pixel_coord (maxiter : Nat) (max_len_sq re_min re_max : ℚ) (re_size : Nat)
    (im_min im_max : ℚ) (im_size : Nat) (py px : Nat) (i : Fin 8) (hi : i.val = px % 8) :
    advance (locals maxiter max_len_sq re_min re_max re_size im_min im_max im_size).re_step_v
        (px / 8)
        (locals maxiter max_len_sq re_min re_max re_size im_min im_max im_size).re_min_v i
      = (sample re_min re_max re_size im_min im_max im_size py px).1
    ∧ _mm256_set1_ps
        ((locals maxiter max_len_sq re_min re_max re_size im_min im_max im_size).im_min
          + (py : ℚ)
            * (locals maxiter max_len_sq re_min re_max re_size im_min im_max im_size).im_step) i
      = (sample re_min re_max re_size im_min im_max im_size py px).2 := by
  constructor
  · rw [advance_apply, re_min_v_apply, hi]
    have hpx : (px : ℚ) = 8 * ((px / 8 : ℕ) : ℚ) + ((px % 8 : ℕ) : ℚ) := by
      exact_mod_cast (Nat.div_add_mod px 8).symm
    simp only [locals, _mm256_set1_ps, sample, packing]
    rw [hpx]
    push_cast
    ring
  · simp only [locals, _mm256_set1_ps, sample]

theorem order_perm (im_size : Nat) (task_parallel : Bool) (schedule : List Nat)
    (hs : task_parallel = true → schedule.Perm (List.range im_size)) :
    (if task_parallel then schedule else List.range im_size).Perm (List.range im_size) := by
  cases task_parallel with
  | false => simp
  | true => simpa using hs rfl

/-- The buffer after the row loop, rows in any order that executes each of
the `im_size` rows once, for a row length that is a multiple of 8. -/
theorem run_rows_cell (L : Locals) (h8 : 8 ∣ L.re_size) (im_size : Nat) (order : List Nat)
    (ho : order.Perm (List.range im_size)) (h : Heap) (j : Nat) :
    (run_rows L order h).cell j
      = if j < L.re_size * im_size then some (pixel_value L (j / L.re_size) (j % L.re_size))
        else h.cell j := by
  obtain ⟨h1, h2, _⟩ := run_rows_spec L h8 h order
  split
  · rename_i hj
    have hR : 0 < L.re_size := by
      rcases Nat.eq_zero_or_pos L.re_size with h0 | h0
      · rw [h0] at hj; simp at hj
      · exact h0
    have hpy : j / L.re_size < im_size := Nat.div_lt_of_lt_mul hj
    have hmem : j / L.re_size ∈ order := (ho.mem_iff).mpr (List.mem_range.mpr hpy)
    have := h1 (j / L.re_size) (j % L.re_size) hmem (Nat.mod_lt _ hR)
    rw [Nat.mul_comm, Nat.div_add_mod] at this
    exact this
  · rename_i hj
    apply h2
    intro py hmem
    right
    have hpy : py < im_size := List.mem_range.mp ((ho.mem_iff).mp hmem)
    have : (py + 1) * L.re_size ≤ im_size * L.re_size := Nat.mul_le_mul_right _ hpy
    rw [Nat.mul_comm im_size] at this
    omega

/-- The element `result[py * re_size + px]` of the returned buffer. -/
theorem kernel_cell (maxiter : Nat) (max_len_sq re_min re_max : ℚ) (re_size : Nat)
    (im_min im_max : ℚ) (im_size : Nat) (task_parallel : Bool) (schedule : List Nat)
    (h8 : 8 ∣ re_size) (hs : task_parallel = true → schedule.Perm (List.range im_size))
    (py px : Nat) (hpy : py < im_size) (hpx : px < re_size) :
    (mandelbrot_intrinsics maxiter max_len_sq re_min re_max re_size im_min im_max im_size
        task_parallel schedule).cell (py * re_size + px)
      = some (pixel_value
          (locals maxiter max_len_sq re_min re_max re_size im_min im_max im_size) py px) := by
  have hR : (locals maxiter max_len_sq re_min re_max re_size im_min im_max im_size).re_size
      = re_size := rfl
  have := run_rows_cell (locals maxiter max_len_sq re_min re_max re_size im_min im_max im_size)
    (by rw [hR]; exact h8) im_size _ (order_perm im_size task_parallel schedule hs)
    (aligned_alloc (sizeof_T * packing) (re_size * im_size * sizeof_T)) (py * re_size + px)
  rw [hR] at this
  have hlt : py * re_size + px < re_size * im_size := by
    have : (py + 1) * re_size ≤ im_size * re_size := Nat.mul_le_mul_right _ hpy
    rw [Nat.mul_comm im_size] at this
    have e : (py + 1) * re_size = py * re_size + re_size := by ring
    omega
  rw [if_pos hlt] at this
  have hdiv : (py * re_size + px) / re_size = py := by
    rw [Nat.mul_comm, Nat.mul_add_div (by omega), Nat.div_eq_of_lt hpx, Nat.add_zero]
  have hmod : (py * re_size + px) % re_size = px := by
    rw [Nat.mul_comm, Nat.mul_add_mod, Nat.mod_eq_of_lt hpx]
  rw [hdiv, hmod] at this
  exact this

/-- Beyond the buffer nothing is stored. -/
theorem kernel_cell_none (maxiter : Nat) (max_len_sq re_min re_max : ℚ) (re_size : Nat)
    (im_min im_max : ℚ) (im_size : Nat) (task_parallel : Bool) (schedule : List Nat)
    (h8 : 8 ∣ re_size) (hs : task_parallel = true → schedule.Perm (List.range im_size))
    (j : Nat) (hj : re_size * im_size ≤ j) :
    (mandelbrot_intrinsics maxiter max_len_sq re_min re_max re_size im_min im_max im_size
        task_parallel schedule).cell j = none := by
  have hR : (locals maxiter max_len_sq re_min re_max re_size im_min im_max im_size).re_size
      = re_size := rfl
  have := run_rows_cell (locals maxiter max_len_sq re_min re_max re_size im_min im_max im_size)
    (by rw [hR]; exact h8) im_size _ (order_perm im_size task_parallel schedule hs)
    (aligned_alloc (sizeof_T * packing) (re_size * im_size * sizeof_T)) j
  rw [hR] at this
  rw [if_neg (show ¬ j < re_size * im_size by omega)] at this
  exact this

/-- The value of a pixel is a value of its own sample coordinate: it lies in
`[0, 1]`. -/
theorem pixel_range (maxiter : Nat) (max_len_sq re_min re_max : ℚ) (re_size : Nat)
    (im_min im_max : ℚ) (im_size : Nat) (py px : Nat) :
    0 ≤ pixel_value (locals maxiter max_len_sq re_min re_max re_size im_min im_max im_size) py px
    ∧ pixel_value (locals maxiter max_len_sq re_min re_max re_size im_min im_max im_size) py px
      ≤ 1 :=
  lane_range _ _ _ _ rfl

/-- A pixel has the value 1 exactly when its sample point is bounded at each of
the `maxiter` iterations. -/
theorem pixel_one_iff (maxiter : Nat) (max_len_sq re_min re_max : ℚ) (re_size : Nat)
    (im_min im_max : ℚ) (im_size : Nat) (py px : Nat) (hmax : 0 < maxiter) :
    pixel_value (locals maxiter max_len_sq re_min re_max re_size im_min im_max im_size) py px = 1
      ↔ ∀ k, k < maxiter →
          bounded max_len_sq (sample re_min re_max re_size im_min im_max im_size py px).1
            (sample re_min re_max re_size im_min im_max im_size py px).2 k := by
  obtain ⟨c1, c2⟩ := pixel_coord maxiter max_len_sq re_min re_max re_size im_min im_max im_size
    py px ⟨px % 8, Nat.mod_lt _ (by decide)⟩ rfl
  rw [← c1, ← c2]
  exact lane_one_iff _ _ _ _ hmax rfl

/-- With a threshold of at least 4 a pixel has the value `n / maxiter`, `n`
the first iteration at which its sample point is not bounded. -/
theorem pixel_escape (maxiter : Nat) (max_len_sq re_min re_max : ℚ) (re_size : Nat)
    (im_min im_max : ℚ) (im_size : Nat) (py px : Nat) (hthr : 4 ≤ max_len_sq) :
    ∃ n, n ≤ maxiter
      ∧ pixel_value (locals maxiter max_len_sq re_min re_max re_size im_min im_max im_size) py px
          = (n : ℚ) / (maxiter : ℚ)
      ∧ (∀ k, k < n →
          bounded max_len_sq (sample re_min re_max re_size im_min im_max im_size py px).1
            (sample re_min re_max re_size im_min im_max im_size py px).2 k)
      ∧ (n < maxiter →
          ¬ bounded max_len_sq (sample re_min re_max re_size im_min im_max im_size py px).1
            (sample re_min re_max re_size im_min im_max im_size py px).2 n) := by
  obtain ⟨c1, c2⟩ := pixel_coord maxiter max_len_sq re_min re_max re_size im_min im_max im_size
    py px ⟨px % 8, Nat.mod_lt _ (by decide)⟩ rfl
  rw [← c1, ← c2]
  exact lane_escape (locals maxiter max_len_sq re_min re_max re_size im_min im_max im_size)
    _ _ _ rfl hthr

/-- The returned buffer, element by element. -/
theorem kernel_buffer (maxiter : Nat) (max_len_sq re_min re_max : ℚ) (re_size : Nat)
    (im_min im_max : ℚ) (im_size : Nat) (task_parallel : Bool) (schedule : List Nat)
    (h8 : 8 ∣ re_size) (hs : task_parallel = true → schedule.Perm (List.range im_size))
    (j : Nat) :
    (mandelbrot_intrinsics maxiter max_len_sq re_min re_max re_size im_min im_max im_size
        task_parallel schedule).cell j
      = if j < re_size * im_size then
          some (pixel_value
            (locals maxiter max_len_sq re_min re_max re_size im_min im_max im_size)
            (j / re_size) (j % re_size))
        else none :=
  run_rows_cell (locals maxiter max_len_sq re_min re_max re_size im_min im_max im_size)
    h8 im_size _ (order_perm im_size task_parallel schedule hs)
    (aligned_alloc (sizeof_T * packing) (re_size * im_size * sizeof_T)) j

/-- With a threshold of at least 4, a pixel whose sample point is not bounded
at iteration 0 has the value 0. -/
theorem pixel_zero_of_escaped (maxiter : Nat) (max_len_sq re_min re_max : ℚ) (re_size : Nat)
    (im_min im_max : ℚ) (im_size : Nat) (py px : Nat) (hthr : 4 ≤ max_len_sq)
    (h0 : ¬ bounded max_len_sq (sample re_min re_max re_size im_min im_max im_size py px).1
      (sample re_min re_max re_size im_min im_max im_size py px).2 0) :
    pixel_value (locals maxiter max_len_sq re_min re_max re_size im_min im_max im_size) py px
      = 0 := by
  obtain ⟨n, _, hv, hb, _⟩ :=
    pixel_escape maxiter max_len_sq re_min re_max re_size im_min im_max im_size py px hthr
  have hn : n = 0 := by
    by_contra hne
    exact h0 (hb 0 (Nat.pos_of_ne_zero hne))
  rw [hv, hn]
  simp

theorem orbit_origin (k : Nat) : orbit 0 0 k = (0, 0) := by
  induction k with
  | zero => rfl
  | succ k ih => simp [orbit, ih]

/-- Conjugating the start value and the coordinate of every lane leaves the
accumulator of the group unchanged. -/
theorem iter_loop_conj (thr inv rc ic ic' : __m256) (hic : ∀ i, ic' i = - ic i) :
    ∀ (n : Nat) (re im im' counts : __m256), (∀ i, im' i = - im i) →
      iter_loop thr inv rc ic' n re im' counts = iter_loop thr inv rc ic n re im counts := by
  intro n
  induction n with
  | zero => intro re im im' counts _; rfl
  | succ n ih =>
    intro re im im' counts him
    have e1 : _mm256_mul_ps im' im' = _mm256_mul_ps im im := by
      funext i; simp [_mm256_mul_ps, him i]
    rw [iter_loop, iter_loop]
    simp only [e1]
    split
    · rfl
    · apply ih
      intro i
      simp only [_mm256_add_ps, _mm256_mul_ps, him i, hic i]
      ring

theorem group_counts_conj (L : Locals) (rc ic ic' : __m256) (hic : ∀ i, ic' i = - ic i) :
    group_counts L rc ic' = group_counts L rc ic :=
  iter_loop_conj L.max_len_sq_v L.inv_maxiter rc ic ic' hic L.maxiter rc ic ic'
    _mm256_setzero_ps hic

/-! ## The stores of the kernel -/

theorem written_row (b G : Nat) :
    written ((List.range G).map (fun g => b + 8 * g)) = List.range' b (8 * G) := by
  induction G with
  | zero => simp [written]
  | succ G ih =>
    simp only [written] at ih ⊢
    rw [List.range_succ, List.map_append, List.flatMap_append, ih, List.map_singleton,
      List.flatMap_singleton, List.range'_append_1]
    congr 1
    ring

theorem written_rows (R n : Nat) :
    (List.range n).flatMap (fun py => List.range' (py * R) R) = List.range (R * n) := by
  induction n with
  | zero => simp
  | succ n ih =>
    rw [List.range_succ, List.flatMap_append, ih, List.flatMap_singleton, List.range_eq_range',
      List.range_eq_range']
    have e : n * R = 0 + R * n := by ring
    rw [e, List.range'_append_1]
    congr 1
    ring

/-- The element indices stored by the row loop, rows in any order that
executes each of the `im_size` rows once, for a row length that is a multiple
of 8: a rearrangement of `0, ..., re_size * im_size - 1`. -/
theorem written_run_rows (L : Locals) (h8 : 8 ∣ L.re_size) (im_size : Nat) (order : List Nat)
    (ho : order.Perm (List.range im_size)) (h : Heap) (hh : h.stores = []) :
    (written (run_rows L order h).stores).Perm (List.range (L.re_size * im_size)) := by
  obtain ⟨_, _, h3⟩ := run_rows_spec L h8 h order
  rw [h3, hh]
  simp only [List.nil_append, written]
  rw [List.flatMap_assoc]
  have hrow : ∀ py, (row_stores L py).flatMap (fun idx => List.range' idx 8)
      = List.range' (py * L.re_size) L.re_size := by
    intro py
    have := written_row (py * L.re_size) (L.re_size / 8)
    simp only [written] at this
    rw [Nat.mul_div_cancel' h8] at this
    exact this
  simp only [hrow]
  rw [← written_rows]
  exact ho.flatMap_right _

/-- Sampling twice as finely in both directions visits, at the even rows and
columns, the sample points of the coarse grid. -/
theorem sample_refine (re_min re_max : ℚ) (re_size : Nat) (im_min im_max : ℚ)
    (im_size : Nat) (py px : Nat) :
    sample re_min re_max (2 * re_size) im_min im_max (2 * im_size) (2 * py) (2 * px)
      = sample re_min re_max re_size im_min im_max im_size py px := by
  simp only [sample]
  push_cast
  refine Prod.ext ?_ ?_
  · show re_min + 2 * (px : ℚ) * ((re_max - re_min) / (2 * (re_size : ℚ)))
      = re_min + (px : ℚ) * ((re_max - re_min) / (re_size : ℚ))
    rcases eq_or_ne (re_size : ℚ) 0 with h | h
    · simp [h]
    · field_simp
      ring
  · show im_min + 2 * (py : ℚ) * ((im_max - im_min) / (2 * (im_size : ℚ)))
      = im_min + (py : ℚ) * ((im_max - im_min) / (im_size : ℚ))
    rcases eq_or_ne (im_size : ℚ) 0 with h | h
    · simp [h]
    · field_simp
      ring

/-- The orbit of `c = -1/2` stays in the real interval `[-1/2, 0]`. -/
theorem orbit_neg_half (k : Nat) :
    (orbit (-1 / 2) 0 k).2 = 0 ∧ -1 / 2 ≤ (orbit (-1 / 2) 0 k).1
      ∧ (orbit (-1 / 2) 0 k).1 ≤ 0 := by
  induction k with
  | zero => simp only [orbit]; norm_num
  | succ k ih =>
    obtain ⟨h2, hlo, hhi⟩ := ih
    simp only [orbit, h2]
    refine ⟨by ring, by nlinarith, by nlinarith⟩

/-- The index arithmetic of the kernel is exact in `size_t` (64 bits): when the
byte count `re_size * im_size * sizeof(T)` handed to `aligned_alloc` is
representable, neither the offset `py * re_size + px` of a store nor the
increment `px + packing` wraps. -/
theorem size_t_exact (re_size im_size py px : Nat)
    (halloc : re_size * im_size * 4 < 2 ^ 64) (hpy : py < im_size) (hpx : px < re_size) :
    (py * re_size + px) % 2 ^ 64 = py * re_size + px
      ∧ (px + packing) % 2 ^ 64 = px + packing := by
  have h1 : (py + 1) * re_size ≤ im_size * re_size := Nat.mul_le_mul_right _ hpy
  have e1 : (py + 1) * re_size = py * re_size + re_size := by ring
  have e2 : im_size * re_size = re_size * im_size := Nat.mul_comm _ _
  have h2 : re_size ≤ re_size * im_size := Nat.le_mul_of_pos_right _ (by omega)
  simp only [packing]
  constructor <;> apply Nat.mod_eq_of_lt <;> omega

/-! ## The registers of the iteration loop -/

theorem iter_loop_succ (thr inv rc ic : __m256) (n : Nat) (s : Regs) :
    iter_loop thr inv rc ic (n + 1) s.re s.im s.counts
      = if _mm256_movemask_ps (not_diverged thr s) = 0 then (iter_body thr inv rc ic s).counts
        else iter_loop thr inv rc ic n (iter_body thr inv rc ic s).re
          (iter_body thr inv rc ic s).im (iter_body thr inv rc ic s).counts :=
  rfl

theorem iter_loop_no_break_succ (thr inv rc ic : __m256) (n : Nat) (s : Regs) :
    iter_loop_no_break thr inv rc ic (n + 1) s.re s.im s.counts
      = iter_loop_no_break thr inv rc ic n (iter_body thr inv rc ic s).re
          (iter_body thr inv rc ic s).im (iter_body thr inv rc ic s).counts :=
  rfl

theorem regs_at_succ (L : Locals) (rc ic : __m256) (j : Nat) :
    regs_at L rc ic (j + 1)
      = iter_body L.max_len_sq_v L.inv_maxiter rc ic (regs_at L rc ic j) := by
  simp only [regs_at, Function.iterate_succ_apply']

/-- The recurrence runs on every lane at every iteration: lane `i` of the
registers on entry to iteration `j` is the point `z_j` of its own orbit. -/
theorem regs_at_orbit (L : Locals) (rc ic : __m256) (i : Fin 8) (j : Nat) :
    (regs_at L rc ic j).re i = (orbit (rc i) (ic i) j).1
      ∧ (regs_at L rc ic j).im i = (orbit (rc i) (ic i) j).2 := by
  induction j with
  | zero => exact ⟨rfl, rfl⟩
  | succ j ih =>
    obtain ⟨h1, h2⟩ := ih
    rw [regs_at_succ]
    constructor
    · simp only [iter_body, _mm256_add_ps, _mm256_sub_ps, _mm256_mul_ps, orbit, h1, h2, pow_two]
    · simp only [iter_body, _mm256_add_ps, _mm256_mul_ps, orbit, h1, h2]
      ring

/-- The mask bit of lane `i` at iteration `j` says whether its point is
bounded at step `j`. -/
theorem not_diverged_lane (L : Locals) (rc ic : __m256) (i : Fin 8) (j : Nat) :
    not_diverged L.max_len_sq_v (regs_at L rc ic j) i
      = decide (bounded (L.max_len_sq_v i) (rc i) (ic i) j) := by
  obtain ⟨h1, h2⟩ := regs_at_orbit L rc ic i j
  simp only [not_diverged, _mm256_cmp_ps_LT_OS, _mm256_add_ps, _mm256_mul_ps, bounded, norm_sq,
    h1, h2, pow_two]

/-- The increment of an iteration. -/
theorem counts_succ (L : Locals) (rc ic : __m256) (i : Fin 8) (j : Nat) :
    (regs_at L rc ic (j + 1)).counts i
      = (regs_at L rc ic j).counts i
        + if not_diverged L.max_len_sq_v (regs_at L rc ic j) i = true then L.inv_maxiter i
          else 0 := by
  rw [regs_at_succ]
  simp only [iter_body, _mm256_add_ps, _mm256_and_ps]

/-- With a threshold of at least 4, a lane whose mask bit is false at iteration
`k` has it false at every iteration from `k` on, and its accumulator keeps the
value it had on entry to iteration `k`. -/
theorem frozen_from (L : Locals) (rc ic : __m256) (i : Fin 8) (hthr : 4 ≤ L.max_len_sq_v i)
    (k : Nat) (hk : not_diverged L.max_len_sq_v (regs_at L rc ic k) i = false) (d : Nat) :
    not_diverged L.max_len_sq_v (regs_at L rc ic (k + d)) i = false
      ∧ (regs_at L rc ic (k + d + 1)).counts i = (regs_at L rc ic k).counts i := by
  induction d with
  | zero =>
    refine ⟨hk, ?_⟩
    rw [Nat.add_zero, counts_succ, hk]
    simp
  | succ d ih =>
    obtain ⟨h1, h2⟩ := ih
    have h3 : not_diverged L.max_len_sq_v (regs_at L rc ic (k + (d + 1))) i = false := by
      rw [not_diverged_lane] at h1 ⊢
      have hb : ¬ bounded (L.max_len_sq_v i) (rc i) (ic i) (k + d) := by simpa using h1
      have := escaped_stays (L.max_len_sq_v i) (rc i) (ic i) hthr (k + d) hb
      simpa using this
    refine ⟨h3, ?_⟩
    have e : k + (d + 1) = k + d + 1 := rfl
    rw [counts_succ, h3, e, h2]
    simp

/-- The loop with the early exit, started on entry to iteration `j` with `n`
iterations to go, returns the accumulator that the registers hold on entry to
some iteration `J`: the iterations `j, ..., J - 1` were executed, the loop was
left at none before `J - 1`, and it was left at `J - 1` unless `J = j + n`. -/
theorem iter_loop_regs (L : Locals) (rc ic : __m256) :
    ∀ n j : Nat, ∃ J, j ≤ J ∧ J ≤ j + n
      ∧ iter_loop L.max_len_sq_v L.inv_maxiter rc ic n (regs_at L rc ic j).re
          (regs_at L rc ic j).im (regs_at L rc ic j).counts = (regs_at L rc ic J).counts
      ∧ (∀ m, j ≤ m → m + 1 < J →
          _mm256_movemask_ps (not_diverged L.max_len_sq_v (regs_at L rc ic m)) ≠ 0)
      ∧ (J = j + n
          ∨ (j < J
            ∧ _mm256_movemask_ps (not_diverged L.max_len_sq_v (regs_at L rc ic (J - 1))) = 0)) := by
  intro n
  induction n with
  | zero =>
    intro j
    exact ⟨j, le_refl _, le_refl _, rfl, fun m h1 h2 => absurd h2 (by omega), Or.inl rfl⟩
  | succ n ih =>
    intro j
    rw [iter_loop_succ]
    by_cases hz : _mm256_movemask_ps (not_diverged L.max_len_sq_v (regs_at L rc ic j)) = 0
    · rw [if_pos hz, ← regs_at_succ]
      exact ⟨j + 1, by omega, by omega, rfl, fun m h1 h2 => absurd h2 (by omega),
        Or.inr ⟨by omega, by simpa using hz⟩⟩
    · rw [if_neg hz, ← regs_at_succ]
      obtain ⟨J, h1, h2, h3, h4, h5⟩ := ih (j + 1)
      refine ⟨J, by omega, by omega, h3, ?_, ?_⟩
      · intro m hm1 hm2
        rcases Nat.eq_or_lt_of_le hm1 with e | hlt
        · rw [← e]; exact hz
        · exact h4 m hlt hm2
      · rcases h5 with h5 | ⟨h5, h6⟩
        · left; omega
        · right; exact ⟨by omega, h6⟩

/-- The accumulator of a lane group, in terms of the registers of its loop. -/
theorem group_counts_regs (L : Locals) (rc ic : __m256) :
    ∃ J, J ≤ L.maxiter ∧ group_counts L rc ic = (regs_at L rc ic J).counts
      ∧ (∀ m, m + 1 < J →
          _mm256_movemask_ps (not_diverged L.max_len_sq_v (regs_at L rc ic m)) ≠ 0)
      ∧ (J = L.maxiter
          ∨ (0 < J
            ∧ _mm256_movemask_ps (not_diverged L.max_len_sq_v (regs_at L rc ic (J - 1))) = 0)) := by
  obtain ⟨J, _, h2, h3, h4, h5⟩ := iter_loop_regs L rc ic L.maxiter 0
  refine ⟨J, by omega, h3, fun m hm => h4 m (Nat.zero_le _) hm, ?_⟩
  rcases h5 with h5 | h5
  · left; omega
  · right; exact h5

/-- The loop without the early exit returns the accumulator of the registers
on entry to iteration `maxiter`. -/
theorem iter_loop_no_break_regs (thr inv rc ic : __m256) :
    ∀ (n : Nat) (s : Regs),
      iter_loop_no_break thr inv rc ic n s.re s.im s.counts
        = ((iter_body thr inv rc ic)^[n] s).counts := by
  intro n
  induction n with
  | zero => intro s; rfl
  | succ n ih =>
    intro s
    rw [iter_loop_no_break_succ, ih (iter_body thr inv rc ic s), Function.iterate_succ_apply]

theorem group_counts_no_break_regs (L : Locals) (rc ic : __m256) :
    group_counts_no_break L rc ic = (regs_at L rc ic L.maxiter).counts :=
  iter_loop_no_break_regs L.max_len_sq_v L.inv_maxiter rc ic L.maxiter
    { re := rc, im := ic, counts := _mm256_setzero_ps }

/-- With a threshold of at least 4 on every lane, the early exit does not
change the accumulator of a lane group. -/
theorem group_counts_eq_no_break (L : Locals) (hthr : ∀ i, 4 ≤ L.max_len_sq_v i)
    (rc ic : __m256) : group_counts L rc ic = group_counts_no_break L rc ic := by
  obtain ⟨J, hJ, hv, _, hstop⟩ := group_counts_regs L rc ic
  rw [hv, group_counts_no_break_regs]
  rcases hstop with h | ⟨h0, hz⟩
  · rw [h]
  · funext i
    have hk : not_diverged L.max_len_sq_v (regs_at L rc ic (J - 1)) i = false :=
      (movemask_eq_zero _).mp hz i
    have h1 := (frozen_from L rc ic i (hthr i) (J - 1) hk 0).2
    have h2 := (frozen_from L rc ic i (hthr i) (J - 1) hk (L.maxiter - J)).2
    have e1 : J - 1 + 0 + 1 = J := by omega
    have e2 : J - 1 + (L.maxiter - J) + 1 = L.maxiter := by omega
    rw [e1] at h1
    rw [e2] at h2
    rw [h1, h2]

/-! ## The batch of size 1 -/

/-- The loop of the batch of size 1 counts the iterations before the first
escape of its pixel. -/
theorem batch1_loop_spec (thr inv cr ci : ℚ) :
    ∀ (n j : Nat) (re im counts : ℚ),
      re = (orbit cr ci j).1 → im = (orbit cr ci j).2 → counts = inv * (j : ℚ) →
      (∀ k, k < j → bounded thr cr ci k) →
      ∃ m, j ≤ m ∧ m ≤ j + n
        ∧ batch1_loop thr inv cr ci n re im counts = inv * (m : ℚ)
        ∧ (∀ k, k < m → bounded thr cr ci k)
        ∧ (m < j + n → ¬ bounded thr cr ci m) := by
  intro n
  induction n with
  | zero =>
    intro j re im counts _ _ hc hb
    exact ⟨j, le_refl _, le_refl _, by simpa [batch1_loop] using hc, hb,
      fun h => absurd h (lt_irrefl _)⟩
  | succ n ih =>
    intro j re im counts hre him hc hb
    have hlen : re * re + im * im = norm_sq (orbit cr ci j) := by
      simp only [norm_sq, hre, him, pow_two]
    rw [batch1_loop]
    simp only [hlen]
    by_cases hj : bounded thr cr ci j
    · have hd : decide (norm_sq (orbit cr ci j) < thr) = true := by simpa [bounded] using hj
      simp only [hd, if_true, Bool.true_eq_false, if_false]
      obtain ⟨m, h1, h2, h3, h4, h5⟩ := ih (j + 1) (re * re - im * im + cr)
        (re * im + re * im + ci) (counts + inv)
        (by simp only [orbit, hre, him, pow_two])
        (by simp only [orbit, hre, him]; ring)
        (by rw [hc]; push_cast; ring)
        (fun k hk => by
          rcases Nat.lt_succ_iff_lt_or_eq.mp hk with h | h
          · exact hb k h
          · exact h ▸ hj)
      exact ⟨m, by omega, by omega, h3, h4, fun h => h5 (by omega)⟩
    · have hd : decide (norm_sq (orbit cr ci j) < thr) = false := by simpa [bounded] using hj
      simp only [hd, if_true, Bool.false_eq_true, if_false, add_zero]
      exact ⟨j, le_refl _, by omega, hc, hb, fun _ => hj⟩

theorem batch1_counts_spec (maxiter : Nat) (thr cr ci : ℚ) :
    ∃ m, m ≤ maxiter ∧ batch1_counts maxiter thr cr ci = (m : ℚ) / (maxiter : ℚ)
      ∧ (∀ k, k < m → bounded thr cr ci k)
      ∧ (m < maxiter → ¬ bounded thr cr ci m) := by
  obtain ⟨m, _, h2, h3, h4, h5⟩ := batch1_loop_spec thr (1 / (maxiter : ℚ)) cr ci maxiter 0
    cr ci 0 rfl rfl (by simp) (fun k hk => absurd hk (Nat.not_lt_zero k))
  refine ⟨m, by omega, ?_, h4, fun h => h5 (by omega)⟩
  rw [batch1_counts, h3, one_div, inv_mul_eq_div]

/-- With a threshold of at least 4, a lane of a group of width 8 holds the
value its pixel gets in a batch of size 1. -/
theorem lane_eq_batch1 (L : Locals) (rc ic : __m256) (i : Fin 8)
    (hinv : L.inv_maxiter i = 1 / (L.maxiter : ℚ)) (hthr : 4 ≤ L.max_len_sq_v i) :
    group_counts L rc ic i = batch1_counts L.maxiter (L.max_len_sq_v i) (rc i) (ic i) := by
  obtain ⟨n, hn, hv, hb, he⟩ := lane_escape L rc ic i hinv hthr
  obtain ⟨m, hm, hw, hb', he'⟩ := batch1_counts_spec L.maxiter (L.max_len_sq_v i) (rc i) (ic i)
  rw [hv, hw, first_escape_unique _ L.maxiter n m hn hb he hm hb' he']

/-! ## The kernel without the early exit -/

theorem col_loop_no_break_eq (L : Locals) (hthr : ∀ i, 4 ≤ L.max_len_sq_v i) (py : Nat)
    (ic : __m256) :
    ∀ (G px : Nat) (rc : __m256) (h : Heap), (L.re_size - px + 7) / 8 = G →
      col_loop_no_break L py ic px rc h = col_loop L py ic px rc h := by
  intro G
  induction G with
  | zero =>
    intro px rc h hG
    have hpx : ¬ px < L.re_size := by omega
    rw [col_loop, col_loop_no_break, if_neg hpx, if_neg hpx]
  | succ G ih =>
    intro px rc h hG
    have hpx : px < L.re_size := by omega
    rw [col_loop, col_loop_no_break, if_pos hpx, if_pos hpx]
    simp only [packing]
    rw [← group_counts_eq_no_break L hthr rc ic]
    exact ih (px + 8) _ _ (by omega)

theorem row_body_no_break_eq (L : Locals) (hthr : ∀ i, 4 ≤ L.max_len_sq_v i) :
    (fun (r : Heap) (py : Nat) => row_body_no_break L py r)
      = fun (r : Heap) (py : Nat) => row_body L py r := by
  funext r py
  exact col_loop_no_break_eq L hthr py _ _ 0 _ r rfl

/-! ## Rows of any length -/

theorem col_loop_alloc (L : Locals) (py : Nat) (ic : __m256) :
    ∀ (G px : Nat) (rc : __m256) (h : Heap), (L.re_size - px + 7) / 8 = G →
      (col_loop L py ic px rc h).alignment = h.alignment
        ∧ (col_loop L py ic px rc h).size = h.size := by
  intro G
  induction G with
  | zero =>
    intro px rc h hG
    have hpx : ¬ px < L.re_size := by omega
    rw [col_loop, if_neg hpx]
    exact ⟨rfl, rfl⟩
  | succ G ih =>
    intro px rc h hG
    have hpx : px < L.re_size := by omega
    rw [col_loop, if_pos hpx]
    simp only [packing]
    exact ih (px + 8) _ _ (by omega)

/-- A row body, for any row length: it executes one store for each of the
`⌈re_size / 8⌉` lane groups, fills the 8 elements of each of them, and leaves
every other element and the allocation as they were. -/
theorem row_body_any (L : Locals) (py : Nat) (h : Heap) :
    (row_body L py h).stores = h.stores ++ group_offsets L py
      ∧ (∀ j, py * L.re_size ≤ j → j < py * L.re_size + 8 * ((L.re_size + 7) / 8) →
          (row_body L py h).cell j ≠ none)
      ∧ (∀ j, (j < py * L.re_size ∨ py * L.re_size + 8 * ((L.re_size + 7) / 8) ≤ j) →
          (row_body L py h).cell j = h.cell j)
      ∧ (row_body L py h).alignment = h.alignment
      ∧ (row_body L py h).size = h.size := by
  obtain ⟨h1, h2, h3⟩ := col_loop_spec L py
    (_mm256_set1_ps (L.im_min + (py : ℚ) * L.im_step)) ((L.re_size + 7) / 8) 0 L.re_min_v h
    (by simp)
  obtain ⟨h4, h5⟩ := col_loop_alloc L py
    (_mm256_set1_ps (L.im_min + (py : ℚ) * L.im_step)) ((L.re_size + 7) / 8) 0 L.re_min_v h
    (by simp)
  refine ⟨?_, ?_, ?_, h4, h5⟩
  · simp only [row_body, group_offsets]
    simpa only [Nat.add_zero] using h3
  · intro j hlo hhi
    have hlt : (j - py * L.re_size) / 8 < (L.re_size + 7) / 8 := by omega
    have := h1 ((j - py * L.re_size) / 8)
      ⟨(j - py * L.re_size) % 8, Nat.mod_lt _ (by decide)⟩ hlt
    simp only [Nat.add_zero] at this
    have e : py * L.re_size + 8 * ((j - py * L.re_size) / 8) + (j - py * L.re_size) % 8 = j := by
      have := Nat.div_add_mod (j - py * L.re_size) 8
      omega
    rw [e] at this
    simp only [row_body]
    rw [this]
    exact Option.some_ne_none _
  · intro j hj
    simp only [row_body]
    exact h2 j (by simpa only [Nat.add_zero] using hj)

/-- The row loop in any order, for any row length. -/
theorem run_rows_any (L : Locals) (h : Heap) :
    ∀ order : List Nat,
      (run_rows L order h).stores = h.stores ++ order.flatMap (group_offsets L)
        ∧ (∀ py j, py ∈ order → py * L.re_size ≤ j →
            j < py * L.re_size + 8 * ((L.re_size + 7) / 8) →
            (run_rows L order h).cell j ≠ none)
        ∧ (run_rows L order h).alignment = h.alignment
        ∧ (run_rows L order h).size = h.size := by
  intro order
  induction order using List.reverseRecOn with
  | nil => simp [run_rows]
  | append_singleton order py ih =>
    obtain ⟨ih1, ih2, ih3, ih4⟩ := ih
    obtain ⟨r1, r2, r3, r4, r5⟩ := row_body_any L py (run_rows L order h)
    rw [run_rows_append]
    refine ⟨?_, ?_, by rw [r4, ih3], by rw [r5, ih4]⟩
    · rw [r1, ih1]
      simp [List.flatMap_append]
    · intro py' j hmem hlo hhi
      by_cases hin : py * L.re_size ≤ j ∧ j < py * L.re_size + 8 * ((L.re_size + 7) / 8)
      · exact r2 j hin.1 hin.2
      · rw [r3 j (by omega)]
        rcases List.mem_append.mp hmem with hm | hm
        · exact ih2 py' j hm hlo hhi
        · have : py' = py := List.mem_singleton.mp hm
          subst this
          exact absurd ⟨hlo, hhi⟩ hin

theorem group_offsets_eq_row_stores (L : Locals) (h8 : 8 ∣ L.re_size) (py : Nat) :
    group_offsets L py = row_stores L py := by
  have e : (L.re_size + 7) / 8 = L.re_size / 8 := by omega
  simp only [group_offsets, row_stores, e]

/-- The stores and the allocation of the kernel, for any row length. -/
theorem kernel_stores (maxiter : Nat) (max_len_sq re_min re_max : ℚ) (re_size : Nat)
    (im_min im_max : ℚ) (im_size : Nat) (task_parallel : Bool) (schedule : List Nat) :
    (mandelbrot_intrinsics maxiter max_len_sq re_min re_max re_size im_min im_max im_size
        task_parallel schedule).stores
      = (if task_parallel then schedule else List.range im_size).flatMap
          (fun py => (List.range ((re_size + 7) / 8)).map (fun g => py * re_size + 8 * g))
    ∧ (mandelbrot_intrinsics maxiter max_len_sq re_min re_max re_size im_min im_max im_size
        task_parallel schedule).alignment = sizeof_T * packing
    ∧ (mandelbrot_intrinsics maxiter max_len_sq re_min re_max re_size im_min im_max im_size
        task_parallel schedule).size = re_size * im_size * sizeof_T := by
  obtain ⟨h1, _, h3, h4⟩ := run_rows_any
    (locals maxiter max_len_sq re_min re_max re_size im_min im_max im_size)
    (aligned_alloc (sizeof_T * packing) (re_size * im_size * sizeof_T))
    (if task_parallel then schedule else List.range im_size)
  exact ⟨by simpa [aligned_alloc] using h1, h3, h4⟩

theorem mem_kernel_stores (re_size : Nat) (order : List Nat) (idx : Nat) :
    idx ∈ order.flatMap
        (fun py => (List.range ((re_size + 7) / 8)).map (fun g => py * re_size + 8 * g))
      ↔ ∃ py g, py ∈ order ∧ g < (re_size + 7) / 8 ∧ idx = py * re_size + 8 * g := by
  simp only [List.mem_flatMap, List.mem_map, List.mem_range]
  constructor
  · rintro ⟨py, hpy, g, hg, rfl⟩
    exact ⟨py, g, hpy, hg, rfl⟩
  · rintro ⟨py, g, hpy, hg, rfl⟩
    exact ⟨py, hpy, g, hg, rfl⟩

theorem written_row_stores (L : Locals) (h8 : 8 ∣ L.re_size) (py : Nat) :
    written (row_stores L py) = List.range' (py * L.re_size) L.re_size := by
  have := written_row (py * L.re_size) (L.re_size / 8)
  rw [Nat.mul_div_cancel' h8] at this
  exact this

/-- The orbit of `c = -2` is `-2, 2, 2, ...`: it stays on the circle of
radius 2. -/
theorem orbit_neg_two (k : Nat) : norm_sq (orbit (-2) 0 k) = 4 := by
  have h : ∀ k, orbit (-2) 0 (k + 1) = (2, 0) := by
    intro k
    induction k with
    | zero => simp only [orbit]; norm_num
    | succ k ih => rw [orbit, ih]; norm_num
  cases k with
  | zero => simp only [orbit, norm_sq]; norm_num
  | succ k => rw [h k]; simp only [norm_sq]; norm_num

/-! ## The fault of the aligned store -/

theorem store_checked_aligned (h : Heap) (idx : Nat) (v : __m256) (h8 : 8 ∣ idx) :
    _mm256_store_ps_checked h idx v = Outcome.returned (_mm256_store_ps h idx v) := by
  have : (idx * sizeof_T) % 32 = 0 := by
    simp only [sizeof_T]
    omega
  simp only [_mm256_store_ps_checked, if_pos this]

theorem store_checked_misaligned (h : Heap) (idx : Nat) (v : __m256) (h8 : ¬ 8 ∣ idx) :
    _mm256_store_ps_checked h idx v = Outcome.fault h idx := by
  have : ¬ (idx * sizeof_T) % 32 = 0 := by
    simp only [sizeof_T]
    omega
  simp only [_mm256_store_ps_checked, if_neg this]

/-- A column loop entered at an aligned offset meets aligned offsets only: it
does not fault and has the effect of `col_loop`. -/
theorem col_loop_checked_aligned (L : Locals) (py : Nat) (ic : __m256) :
    ∀ (G px : Nat) (rc : __m256) (h : Heap), (L.re_size - px + 7) / 8 = G →
      8 ∣ py * L.re_size + px →
      col_loop_checked L py ic px rc h = Outcome.returned (col_loop L py ic px rc h) := by
  intro G
  induction G with
  | zero =>
    intro px rc h hG _
    have hpx : ¬ px < L.re_size := by omega
    rw [col_loop, col_loop_checked, if_neg hpx, if_neg hpx]
  | succ G ih =>
    intro px rc h hG h8
    have hpx : px < L.re_size := by omega
    rw [col_loop, col_loop_checked, if_pos hpx, if_pos hpx]
    simp only [packing, store_checked_aligned _ _ _ h8]
    exact ih (px + 8) _ _ (by omega) (by omega)

/-- A column loop entered at a misaligned offset faults at its first store. -/
theorem col_loop_checked_misaligned (L : Locals) (py : Nat) (ic : __m256) (px : Nat)
    (rc : __m256) (h : Heap) (hpx : px < L.re_size) (h8 : ¬ 8 ∣ py * L.re_size + px) :
    col_loop_checked L py ic px rc h = Outcome.fault h (py * L.re_size + px) := by
  rw [col_loop_checked, if_pos hpx]
  simp only [store_checked_misaligned _ _ _ h8]

theorem row_body_checked_aligned (L : Locals) (py : Nat) (h : Heap)
    (h8 : 8 ∣ py * L.re_size) :
    row_body_checked L py h = Outcome.returned (row_body L py h) :=
  col_loop_checked_aligned L py _ _ 0 _ h rfl (by simpa using h8)

theorem row_body_checked_misaligned (L : Locals) (py : Nat) (h : Heap)
    (hR : 0 < L.re_size) (h8 : ¬ 8 ∣ py * L.re_size) :
    row_body_checked L py h = Outcome.fault h (py * L.re_size) :=
  col_loop_checked_misaligned L py _ 0 _ h hR (by simpa using h8)

/-- The row loop does not fault when every row it executes starts at an
aligned offset; it then has the effect of `run_rows`. -/
theorem run_rows_checked_aligned (L : Locals) :
    ∀ (order : List Nat) (h : Heap), (∀ py, py ∈ order → 8 ∣ py * L.re_size) →
      run_rows_checked L order h = Outcome.returned (run_rows L order h) := by
  intro order
  induction order with
  | nil => intro h _; rfl
  | cons py order ih =>
    intro h hal
    rw [run_rows_checked, row_body_checked_aligned L py h (hal py (by simp))]
    simp only [run_rows, List.foldl_cons]
    exact ih _ (fun q hq => hal q (List.mem_cons_of_mem _ hq))

/-- Whenever `re_size` is a multiple of 8 the kernel does not fault and returns
the heap of `mandelbrot_intrinsics`, in every row order. -/
theorem kernel_checked_of_dvd (maxiter : Nat) (max_len_sq re_min re_max : ℚ) (re_size : Nat)
    (im_min im_max : ℚ) (im_size : Nat) (task_parallel : Bool) (schedule : List Nat)
    (h8 : 8 ∣ re_size) :
    mandelbrot_intrinsics_checked maxiter max_len_sq re_min re_max re_size im_min im_max
        im_size task_parallel schedule
      = Outcome.returned
          (mandelbrot_intrinsics maxiter max_len_sq re_min re_max re_size im_min im_max
            im_size task_parallel schedule) :=
  run_rows_checked_aligned _ _ _ (fun py _ => Dvd.dvd.mul_left h8 py)

/-- A single row: the kernel does not fault, whatever `re_size`. -/
theorem kernel_checked_single_row (maxiter : Nat) (max_len_sq re_min re_max : ℚ)
    (re_size : Nat) (im_min im_max : ℚ) (task_parallel : Bool) (schedule : List Nat)
    (hs : task_parallel = true → schedule.Perm (List.range 1)) :
    mandelbrot_intrinsics_checked maxiter max_len_sq re_min re_max re_size im_min im_max
        1 task_parallel schedule
      = Outcome.returned
          (mandelbrot_intrinsics maxiter max_len_sq re_min re_max re_size im_min im_max
            1 task_parallel schedule) := by
  have hperm := order_perm 1 task_parallel schedule hs
  apply run_rows_checked_aligned
  intro py hpy
  have : py < 1 := List.mem_range.mp ((hperm.mem_iff).mp hpy)
  have e : py = 0 := by omega
  rw [e, Nat.zero_mul]
  exact Nat.dvd_zero 8

/-- In the sequential order, with `re_size` not a multiple of 8 and at least
two rows: row 0 is stored, then the first store of row 1, at offset
`re_size`, faults. -/
theorem run_rows_checked_sequential_fault (L : Locals) (im_size : Nat) (h : Heap)
    (h8 : ¬ 8 ∣ L.re_size) (him : 2 ≤ im_size) :
    run_rows_checked L (List.range im_size) h
      = Outcome.fault (row_body L 0 h) (1 * L.re_size) := by
  have hR : 0 < L.re_size := by
    rcases Nat.eq_zero_or_pos L.re_size with h0 | h0
    · exact absurd (h0 ▸ Nat.dvd_zero 8) h8
    · exact h0
  obtain ⟨n, rfl⟩ : ∃ n, im_size = n + 2 := ⟨im_size - 2, by omega⟩
  have e : List.range (n + 2) = 0 :: 1 :: (List.range n).map (fun k => k + 2) := by
    rw [List.range_succ_eq_map, List.range_succ_eq_map]
    simp [Function.comp]
  rw [e, run_rows_checked,
    row_body_checked_aligned L 0 h (by rw [Nat.zero_mul]; exact Nat.dvd_zero 8)]
  simp only []
  rw [run_rows_checked,
    row_body_checked_misaligned L 1 (row_body L 0 h) hR (by simpa using h8)]

/-! ## The contract -/

/-- Claim C1. Over exact arithmetic, with `maxiter > 0`, threshold 4 and
`re_size` a multiple of 8: for every `py < im_size` and `px < re_size` the
kernel stores at index `py * re_size + px` the value `n / maxiter`, where
`c = (re_min + px * re_step, im_min + py * im_step)`,
`re_step = (re_max - re_min) / re_size`, `im_step = (im_max - im_min) / im_size`,
`z_0 = c`, `z_{k+1} = z_k ^ 2 + c`, and `n` is the least `k < maxiter` with
`|z_k|^2 ≥ 4`, or `maxiter` when there is none. -/
theorem stored_value_is_escape_fraction
    (maxiter : Nat) (re_min re_max : ℚ) (re_size : Nat) (im_min im_max : ℚ) (im_size : Nat)
    (task_parallel : Bool) (schedule : List Nat)
    (_hmax : 0 < maxiter) (h8 : 8 ∣ re_size)
    (hs : task_parallel = true → schedule.Perm (List.range im_size))
    (py px : Nat) (hpy : py < im_size) (hpx : px < re_size) :
    ∃ n : Nat, n ≤ maxiter
      ∧ (mandelbrot_intrinsics maxiter 4 re_min re_max re_size im_min im_max im_size
            task_parallel schedule).cell (py * re_size + px)
          = some ((n : ℚ) / (maxiter : ℚ))
      ∧ (∀ k, k < n →
          norm_sq (orbit (re_min + (px : ℚ) * ((re_max - re_min) / (re_size : ℚ)))
            (im_min + (py : ℚ) * ((im_max - im_min) / (im_size : ℚ))) k) < 4)
      ∧ (n < maxiter →
          4 ≤ norm_sq (orbit (re_min + (px : ℚ) * ((re_max - re_min) / (re_size : ℚ)))
            (im_min + (py : ℚ) * ((im_max - im_min) / (im_size : ℚ))) n)) := by
  obtain ⟨n, hn, hv, hb, he⟩ :=
    pixel_escape maxiter 4 re_min re_max re_size im_min im_max im_size py px (le_refl _)
  refine ⟨n, hn, ?_, hb, fun h => not_lt.mp (he h)⟩
  rw [kernel_cell maxiter 4 re_min re_max re_size im_min im_max im_size task_parallel schedule
    h8 hs py px hpy hpx, hv]

theorem stored_value_is_escape_fraction_witness :
    0 < 3 ∧ 8 ∣ 8 ∧ ((true = true) → [1, 0].Perm (List.range 2)) ∧ 1 < 2 ∧ 5 < 8
      ∧ ∃ n : Nat, n ≤ 3
        ∧ (mandelbrot_intrinsics 3 4 (-2) 2 8 (-2) 2 2 true [1, 0]).cell (1 * 8 + 5)
            = some ((n : ℚ) / ((3 : Nat) : ℚ))
        ∧ (∀ k, k < n →
            norm_sq (orbit (-2 + ((5 : Nat) : ℚ) * ((2 - -2) / ((8 : Nat) : ℚ)))
              (-2 + ((1 : Nat) : ℚ) * ((2 - -2) / ((2 : Nat) : ℚ))) k) < 4)
        ∧ (n < 3 →
            4 ≤ norm_sq (orbit (-2 + ((5 : Nat) : ℚ) * ((2 - -2) / ((8 : Nat) : ℚ)))
              (-2 + ((1 : Nat) : ℚ) * ((2 - -2) / ((2 : Nat) : ℚ))) n)) :=
  ⟨by decide, by decide, fun _ => by decide, by decide, by decide,
    stored_value_is_escape_fraction 3 (-2) 2 8 (-2) 2 2 true [1, 0] (by decide) (by decide)
      (fun _ => by decide) 1 5 (by decide) (by decide)⟩

/-- Claim C2. Range invariant: for every window and every grid with `re_size`
a multiple of 8 (`maxiter > 0`, exact arithmetic), every value of the buffer
returned by the kernel lies in the closed interval `[0, 1]`. -/
theorem buffer_values_in_unit_interval
    (maxiter : Nat) (max_len_sq re_min re_max : ℚ) (re_size : Nat) (im_min im_max : ℚ)
    (im_size : Nat) (task_parallel : Bool) (schedule : List Nat)
    (_hmax : 0 < maxiter) (h8 : 8 ∣ re_size)
    (hs : task_parallel = true → schedule.Perm (List.range im_size))
    (j : Nat) (hj : j < re_size * im_size) :
    ∃ v : ℚ,
      (mandelbrot_intrinsics maxiter max_len_sq re_min re_max re_size im_min im_max im_size
          task_parallel schedule).cell j = some v
      ∧ 0 ≤ v ∧ v ≤ 1 := by
  refine ⟨_, ?_, pixel_range maxiter max_len_sq re_min re_max re_size im_min im_max im_size
    (j / re_size) (j % re_size)⟩
  rw [kernel_buffer maxiter max_len_sq re_min re_max re_size im_min im_max im_size
    task_parallel schedule h8 hs j, if_pos hj]

theorem buffer_values_in_unit_interval_witness :
    0 < 100 ∧ 8 ∣ 16 ∧ ((false = true) → [].Perm (List.range 3)) ∧ 47 < 16 * 3
      ∧ ∃ v : ℚ,
        (mandelbrot_intrinsics 100 4 (-2) 1 16 (-1) 1 3 false []).cell 47 = some v
        ∧ 0 ≤ v ∧ v ≤ 1 :=
  ⟨by decide, by decide, fun h => by simp at h, by decide,
    buffer_values_in_unit_interval 100 4 (-2) 1 16 (-1) 1 3 false [] (by decide) (by decide)
      (fun h => by simp at h) 47 (by decide)⟩

/-- Claim C3, as amended. For every window with `im_min = -im_max` and every
grid with `re_size` a multiple of 8, for every `0 < py < im_size` and
`px < re_size` the output at (row `py`, column `px`) equals the output at
(row `im_size - py`, column `px`): the rows are sampled at
`im_min + py * im_step`, so the mirror image of row `py` is row
`im_size - py`. -/
theorem mirrored_rows_agree
    (maxiter : Nat) (max_len_sq re_min re_max : ℚ) (re_size : Nat) (im_max : ℚ)
    (im_size : Nat) (task_parallel : Bool) (schedule : List Nat)
    (h8 : 8 ∣ re_size) (hs : task_parallel = true → schedule.Perm (List.range im_size))
    (py px : Nat) (hpy0 : 0 < py) (hpy : py < im_size) (hpx : px < re_size) :
    (mandelbrot_intrinsics maxiter max_len_sq re_min re_max re_size (-im_max) im_max im_size
        task_parallel schedule).cell (py * re_size + px)
      = (mandelbrot_intrinsics maxiter max_len_sq re_min re_max re_size (-im_max) im_max
          im_size task_parallel schedule).cell ((im_size - py) * re_size + px) := by
  rw [kernel_cell maxiter max_len_sq re_min re_max re_size (-im_max) im_max im_size
      task_parallel schedule h8 hs py px hpy hpx,
    kernel_cell maxiter max_len_sq re_min re_max re_size (-im_max) im_max im_size
      task_parallel schedule h8 hs (im_size - py) px (by omega) hpx]
  congr 1
  simp only [pixel_value]
  refine (congrFun (group_counts_conj _ _ _ _ ?_) _).symm
  intro i
  have hS : (im_size : ℚ) ≠ 0 := by
    have : 0 < im_size := by omega
    exact_mod_cast (ne_of_gt this)
  simp only [_mm256_set1_ps, locals]
  rw [Nat.cast_sub (le_of_lt hpy)]
  field_simp
  ring

theorem mirrored_rows_agree_witness :
    8 ∣ 8 ∧ ((false = true) → [].Perm (List.range 4)) ∧ 0 < 1 ∧ 1 < 4 ∧ 3 < 8
      ∧ (mandelbrot_intrinsics 50 4 (-2) 2 8 (-2) 2 4 false []).cell (1 * 8 + 3)
        = (mandelbrot_intrinsics 50 4 (-2) 2 8 (-2) 2 4 false []).cell ((4 - 1) * 8 + 3) :=
  ⟨by decide, fun h => by simp at h, by decide, by decide, by decide,
    mirrored_rows_agree 50 4 (-2) 2 8 2 4 false [] (by decide) (fun h => by simp at h) 1 3
      (by decide) (by decide) (by decide)⟩

/-- Claim C3 fails as stated: window `re ∈ [0, 8]`, `im ∈ [-2, 2]`, grid 8 x 2,
`maxiter = 2`, threshold 4. Row 0 is sampled at `im = -2`, row 1 at `im = 0`;
the pixel (0, 0) has `c = (0, -2)` and the value 0, the pixel
(`im_size - 1 - 0`, 0) has `c = (0, 0)` and the value 1. -/
theorem symmetry_counterexample :
    ¬ ((mandelbrot_intrinsics 2 4 0 8 8 (-2) 2 2 false []).cell (0 * 8 + 0)
        = (mandelbrot_intrinsics 2 4 0 8 8 (-2) 2 2 false []).cell ((2 - 1 - 0) * 8 + 0)) := by
  rw [kernel_cell 2 4 0 8 8 (-2) 2 2 false [] (by decide) (fun h => by simp at h) 0 0
      (by decide) (by decide),
    kernel_cell 2 4 0 8 8 (-2) 2 2 false [] (by decide) (fun h => by simp at h) (2 - 1 - 0) 0
      (by decide) (by decide)]
  have h0 : pixel_value (locals 2 4 0 8 8 (-2) 2 2) 0 0 = 0 := by
    apply pixel_zero_of_escaped 2 4 0 8 8 (-2) 2 2 0 0 (le_refl _)
    simp only [bounded, sample, orbit, norm_sq]
    norm_num
  have h1 : pixel_value (locals 2 4 0 8 8 (-2) 2 2) (2 - 1 - 0) 0 = 1 := by
    rw [pixel_one_iff 2 4 0 8 8 (-2) 2 2 (2 - 1 - 0) 0 (by decide)]
    intro k _
    have e : sample 0 8 8 (-2) 2 2 (2 - 1 - 0) 0 = (0, 0) := by
      simp only [sample]; norm_num
    rw [e]
    simp only [bounded, orbit_origin, norm_sq]
    norm_num
  rw [h0, h1]
  simp

/-- Claim C4, as amended. With threshold 4, in every window and grid with
`re_size` a multiple of 8 and `maxiter > 0`, a pixel whose sample coordinate is
`c = (2, 2)` fails the divergence test at iteration 0 (`|z_0|^2 = 8 ≥ 4`),
receives no increment, and its output value is 0, strictly less than 1. -/
theorem escaping_point_value_zero
    (maxiter : Nat) (re_min re_max : ℚ) (re_size : Nat) (im_min im_max : ℚ) (im_size : Nat)
    (task_parallel : Bool) (schedule : List Nat)
    (_hmax : 0 < maxiter) (h8 : 8 ∣ re_size)
    (hs : task_parallel = true → schedule.Perm (List.range im_size))
    (py px : Nat) (hpy : py < im_size) (hpx : px < re_size)
    (hc : sample re_min re_max re_size im_min im_max im_size py px = (2, 2)) :
    norm_sq (orbit 2 2 0) = 8
      ∧ ∃ v : ℚ,
        (mandelbrot_intrinsics maxiter 4 re_min re_max re_size im_min im_max im_size
            task_parallel schedule).cell (py * re_size + px) = some v
        ∧ v = 0 ∧ v < 1 := by
  refine ⟨by simp only [orbit, norm_sq]; norm_num, 0, ?_, rfl, by norm_num⟩
  rw [kernel_cell maxiter 4 re_min re_max re_size im_min im_max im_size task_parallel schedule
    h8 hs py px hpy hpx]
  congr 1
  apply pixel_zero_of_escaped maxiter 4 re_min re_max re_size im_min im_max im_size py px
    (le_refl _)
  rw [hc]
  simp only [bounded, orbit, norm_sq]
  norm_num

theorem escaping_point_value_zero_witness :
    0 < 100 ∧ 8 ∣ 8 ∧ ((false = true) → [].Perm (List.range 1)) ∧ 0 < 1 ∧ 0 < 8
      ∧ sample 2 10 8 2 3 1 0 0 = (2, 2)
      ∧ norm_sq (orbit 2 2 0) = 8
      ∧ ∃ v : ℚ, (mandelbrot_intrinsics 100 4 2 10 8 2 3 1 false []).cell (0 * 8 + 0) = some v
        ∧ v = 0 ∧ v < 1 :=
  ⟨by decide, by decide, fun h => by simp at h, by decide, by decide,
    by simp only [sample]; norm_num,
    escaping_point_value_zero 100 2 10 8 2 3 1 false [] (by decide) (by decide)
      (fun h => by simp at h) 0 0 (by decide) (by decide) (by simp only [sample]; norm_num)⟩

/-- Claim C4 fails as stated: window `re ∈ [2, 10]`, `im ∈ [2, 3]`, grid 8 x 1,
`maxiter = 100`, threshold 4. The pixel (0, 0) has the sample coordinate
`(2, 2)`; the element stored for it is 0, not `1 / maxiter`. -/
theorem escaping_point_counterexample :
    sample 2 10 8 2 3 1 0 0 = (2, 2)
      ∧ (mandelbrot_intrinsics 100 4 2 10 8 2 3 1 false []).cell (0 * 8 + 0) = some 0
      ∧ (mandelbrot_intrinsics 100 4 2 10 8 2 3 1 false []).cell (0 * 8 + 0)
          ≠ some (1 / ((100 : Nat) : ℚ)) := by
  have hc : sample 2 10 8 2 3 1 0 0 = (2, 2) := by simp only [sample]; norm_num
  have hv : (mandelbrot_intrinsics 100 4 2 10 8 2 3 1 false []).cell (0 * 8 + 0) = some 0 := by
    rw [kernel_cell 100 4 2 10 8 2 3 1 false [] (by decide) (fun h => by simp at h) 0 0
      (by decide) (by decide)]
    congr 1
    apply pixel_zero_of_escaped 100 4 2 10 8 2 3 1 0 0 (le_refl _)
    rw [hc]
    simp only [bounded, orbit, norm_sq]
    norm_num
  refine ⟨hc, hv, ?_⟩
  rw [hv]
  norm_num

/-- Claim C5. Known point: for every window and grid (`re_size` a multiple of
8, `maxiter > 0`, exact arithmetic, a positive threshold) in which some pixel
(`py`, `px`) has the sample coordinate exactly `(0, 0)`, the output at that
pixel is 1, whatever the other lanes of its group do. -/
theorem origin_value_one
    (maxiter : Nat) (max_len_sq re_min re_max : ℚ) (re_size : Nat) (im_min im_max : ℚ)
    (im_size : Nat) (task_parallel : Bool) (schedule : List Nat)
    (hthr : 0 < max_len_sq) (hmax : 0 < maxiter) (h8 : 8 ∣ re_size)
    (hs : task_parallel = true → schedule.Perm (List.range im_size))
    (py px : Nat) (hpy : py < im_size) (hpx : px < re_size)
    (hc : sample re_min re_max re_size im_min im_max im_size py px = (0, 0)) :
    (mandelbrot_intrinsics maxiter max_len_sq re_min re_max re_size im_min im_max im_size
        task_parallel schedule).cell (py * re_size + px) = some 1 := by
  rw [kernel_cell maxiter max_len_sq re_min re_max re_size im_min im_max im_size task_parallel
    schedule h8 hs py px hpy hpx]
  congr 1
  rw [pixel_one_iff maxiter max_len_sq re_min re_max re_size im_min im_max im_size py px hmax,
    hc]
  intro k _
  simp only [bounded, orbit_origin, norm_sq]
  simpa using hthr

theorem origin_value_one_witness :
    (0 : ℚ) < 4 ∧ 0 < 100 ∧ 8 ∣ 8 ∧ ((true = true) → [2, 0, 1, 3].Perm (List.range 4))
      ∧ 2 < 4 ∧ 4 < 8 ∧ sample (-2) 2 8 (-2) 2 4 2 4 = (0, 0)
      ∧ (mandelbrot_intrinsics 100 4 (-2) 2 8 (-2) 2 4 true [2, 0, 1, 3]).cell (2 * 8 + 4)
          = some 1 :=
  ⟨by norm_num, by decide, by decide, fun _ => by decide, by decide, by decide,
    by simp only [sample]; norm_num,
    origin_value_one 100 4 (-2) 2 8 (-2) 2 4 true [2, 0, 1, 3] (by norm_num) (by decide)
      (by decide) (fun _ => by decide) 2 4 (by decide) (by decide)
      (by simp only [sample]; norm_num)⟩

/-- Claim C6. An output value is 1 exactly when the pixel did not escape within
the iteration budget (`maxiter > 0`, exact arithmetic). For every lane group
and every lane of it, with coordinate `c = (re_coord i, im_coord i)`, the
accumulator that the iteration loop leaves for the lane equals 1 if and only if
`|z_k|^2 < max_len_sq` for every `k < maxiter`, where `z_0 = c` and
`z_{k+1} = z_k ^ 2 + c`; and when `re_size` is a multiple of 8 the same holds
of the buffer element of every pixel, `c` its sample coordinate. -/
theorem output_one_iff_never_escaped
    (maxiter : Nat) (max_len_sq re_min re_max : ℚ) (re_size : Nat) (im_min im_max : ℚ)
    (im_size : Nat) (hmax : 0 < maxiter) :
    (∀ (re_coord im_coord : __m256) (i : Fin 8),
      group_counts (locals maxiter max_len_sq re_min re_max re_size im_min im_max im_size)
          re_coord im_coord i = 1
        ↔ ∀ k, k < maxiter → norm_sq (orbit (re_coord i) (im_coord i) k) < max_len_sq)
    ∧ (∀ (task_parallel : Bool) (schedule : List Nat) (py px : Nat), 8 ∣ re_size →
        (task_parallel = true → schedule.Perm (List.range im_size)) →
        py < im_size → px < re_size →
        ((mandelbrot_intrinsics maxiter max_len_sq re_min re_max re_size im_min im_max im_size
            task_parallel schedule).cell (py * re_size + px) = some 1
          ↔ ∀ k, k < maxiter →
            norm_sq (orbit (sample re_min re_max re_size im_min im_max im_size py px).1
              (sample re_min re_max re_size im_min im_max im_size py px).2 k) < max_len_sq)) := by
  refine ⟨fun re_coord im_coord i =>
    lane_one_iff (locals maxiter max_len_sq re_min re_max re_size im_min im_max im_size)
      re_coord im_coord i hmax rfl, ?_⟩
  intro task_parallel schedule py px h8 hs hpy hpx
  rw [kernel_cell maxiter max_len_sq re_min re_max re_size im_min im_max im_size task_parallel
    schedule h8 hs py px hpy hpx, Option.some_inj]
  exact pixel_one_iff maxiter max_len_sq re_min re_max re_size im_min im_max im_size py px hmax

theorem output_one_iff_never_escaped_witness :
    0 < 3
      ∧ (group_counts (locals 3 4 (-2) 2 8 (-2) 2 4)
            (_mm256_set_ps 7 6 5 4 3 2 1 0) (_mm256_set1_ps 0) 0 = 1
          ↔ ∀ k, k < 3 →
            norm_sq (orbit (_mm256_set_ps 7 6 5 4 3 2 1 0 0) (_mm256_set1_ps 0 0) k) < 4) :=
  ⟨by decide, (output_one_iff_never_escaped 3 4 (-2) 2 8 (-2) 2 4 (by decide)).1
    (_mm256_set_ps 7 6 5 4 3 2 1 0) (_mm256_set1_ps 0) 0⟩

/-- Claim C7. Determinism: for fixed inputs with `re_size` a multiple of 8,
`task_parallel = true` and `task_parallel = false` produce identical output
buffers: executing the rows `0, ..., im_size - 1` in the order of any
permutation `schedule` yields the same final buffer as executing them in
increasing order. -/
theorem parallel_buffer_eq_sequential
    (maxiter : Nat) (max_len_sq re_min re_max : ℚ) (re_size : Nat) (im_min im_max : ℚ)
    (im_size : Nat) (schedule : List Nat)
    (h8 : 8 ∣ re_size) (hs : schedule.Perm (List.range im_size)) :
    (∀ result : Heap,
      (run_rows (locals maxiter max_len_sq re_min re_max re_size im_min im_max im_size)
          schedule result).cell
        = (run_rows (locals maxiter max_len_sq re_min re_max re_size im_min im_max im_size)
            (List.range im_size) result).cell)
    ∧ (mandelbrot_intrinsics maxiter max_len_sq re_min re_max re_size im_min im_max im_size
          true schedule).cell
      = (mandelbrot_intrinsics maxiter max_len_sq re_min re_max re_size im_min im_max im_size
          false schedule).cell := by
  have key : ∀ result : Heap,
      (run_rows (locals maxiter max_len_sq re_min re_max re_size im_min im_max im_size)
          schedule result).cell
        = (run_rows (locals maxiter max_len_sq re_min re_max re_size im_min im_max im_size)
            (List.range im_size) result).cell := by
    intro result
    funext j
    rw [run_rows_cell _ h8 im_size schedule hs result j,
      run_rows_cell _ h8 im_size (List.range im_size) (List.Perm.refl _) result j]
  exact ⟨key, key _⟩

theorem parallel_buffer_eq_sequential_witness :
    8 ∣ 16 ∧ [2, 0, 1].Perm (List.range 3)
      ∧ (∀ result : Heap,
          (run_rows (locals 100 4 (-2) 1 16 (-1) 1 3) [2, 0, 1] result).cell
            = (run_rows (locals 100 4 (-2) 1 16 (-1) 1 3) (List.range 3) result).cell)
      ∧ (mandelbrot_intrinsics 100 4 (-2) 1 16 (-1) 1 3 true [2, 0, 1]).cell
        = (mandelbrot_intrinsics 100 4 (-2) 1 16 (-1) 1 3 false [2, 0, 1]).cell :=
  ⟨by decide, by decide,
    parallel_buffer_eq_sequential 100 4 (-2) 1 16 (-1) 1 3 [2, 0, 1] (by decide) (by decide)⟩

/-- Claim C8. Scenario: window `re ∈ [-2, 1]`, `im ∈ [-1.5, 1.5]`, resolution
64 x 64, `maxiter = 100`, threshold 4, `parallel = false`, exact arithmetic.
The kernel stores 4096 elements, the buffer elements `0, ..., 4095` all hold
values in `[0, 1]` and nothing lies beyond them; the element at row 32,
column 32 (coordinate `re = -0.5`, `im = 0`) is 1; the element at row 32,
column 63 (coordinate `re = 0.953125`, `im = 0`) is less than 0.3. -/
theorem scenario_64x64 :
    (written (mandelbrot_intrinsics 100 4 (-2) 1 64 (-3 / 2) (3 / 2) 64 false []).stores).length
        = 4096
      ∧ (∀ j, j < 4096 → ∃ v : ℚ,
          (mandelbrot_intrinsics 100 4 (-2) 1 64 (-3 / 2) (3 / 2) 64 false []).cell j = some v
          ∧ 0 ≤ v ∧ v ≤ 1)
      ∧ (∀ j, 4096 ≤ j →
          (mandelbrot_intrinsics 100 4 (-2) 1 64 (-3 / 2) (3 / 2) 64 false []).cell j = none)
      ∧ sample (-2) 1 64 (-3 / 2) (3 / 2) 64 32 32 = (-1 / 2, 0)
      ∧ (mandelbrot_intrinsics 100 4 (-2) 1 64 (-3 / 2) (3 / 2) 64 false []).cell (32 * 64 + 32)
          = some 1
      ∧ sample (-2) 1 64 (-3 / 2) (3 / 2) 64 32 63 = (953125 / 1000000, 0)
      ∧ ∃ v : ℚ,
          (mandelbrot_intrinsics 100 4 (-2) 1 64 (-3 / 2) (3 / 2) 64 false []).cell (32 * 64 + 63)
            = some v
          ∧ v < 3 / 10 := by
  have h8 : 8 ∣ 64 := by decide
  have hs : false = true → ([] : List Nat).Perm (List.range 64) := fun h => by simp at h
  have hc1 : sample (-2) 1 64 (-3 / 2) (3 / 2) 64 32 32 = (-1 / 2, 0) := by
    simp only [sample]; norm_num
  have hc2 : sample (-2) 1 64 (-3 / 2) (3 / 2) 64 32 63 = (953125 / 1000000, 0) := by
    simp only [sample]; norm_num
  refine ⟨?_, ?_, ?_, hc1, ?_, hc2, ?_⟩
  · have := (written_run_rows (locals 100 4 (-2) 1 64 (-3 / 2) (3 / 2) 64) h8 64
      (List.range 64) (List.Perm.refl _)
      (aligned_alloc (sizeof_T * packing) (64 * 64 * sizeof_T)) rfl).length_eq
    simpa [mandelbrot_intrinsics, locals] using this
  · intro j hj
    refine ⟨_, ?_, pixel_range 100 4 (-2) 1 64 (-3 / 2) (3 / 2) 64 (j / 64) (j % 64)⟩
    rw [kernel_buffer 100 4 (-2) 1 64 (-3 / 2) (3 / 2) 64 false [] h8 hs j, if_pos (by omega)]
  · intro j hj
    exact kernel_cell_none 100 4 (-2) 1 64 (-3 / 2) (3 / 2) 64 false [] h8 hs j (by omega)
  · rw [kernel_cell 100 4 (-2) 1 64 (-3 / 2) (3 / 2) 64 false [] h8 hs 32 32 (by decide)
      (by decide)]
    congr 1
    rw [pixel_one_iff 100 4 (-2) 1 64 (-3 / 2) (3 / 2) 64 32 32 (by decide), hc1]
    intro k _
    obtain ⟨h2, hlo, hhi⟩ := orbit_neg_half k
    simp only [bounded, norm_sq, h2]
    nlinarith
  · obtain ⟨n, hn, hv, hb, he⟩ :=
      pixel_escape 100 4 (-2) 1 64 (-3 / 2) (3 / 2) 64 32 63 (le_refl _)
    rw [hc2] at hb he
    have hb1 : bounded 4 (953125 / 1000000) 0 1 := by
      simp only [bounded, orbit, norm_sq]; norm_num
    have he2 : ¬ bounded 4 (953125 / 1000000) 0 2 := by
      simp only [bounded, orbit, norm_sq]; norm_num
    have hb0 : bounded 4 (953125 / 1000000) 0 0 := by
      simp only [bounded, orbit, norm_sq]; norm_num
    have hn2 : n = 2 := by
      rcases Nat.lt_trichotomy n 2 with h | h | h
      · have hne := he (by omega)
        interval_cases n
        · exact absurd hb0 hne
        · exact absurd hb1 hne
      · exact h
      · exact absurd (hb 2 h) he2
    refine ⟨_, kernel_cell 100 4 (-2) 1 64 (-3 / 2) (3 / 2) 64 false [] h8 hs 32 63 (by decide)
      (by decide), ?_⟩
    rw [hv, hn2]
    norm_num

/-- Claim C9. Resolution refinement (threshold 4, exact arithmetic): for every
window and every grid with `re_size` a multiple of 8, and every `py < im_size`,
`px < re_size`, the pixel (row `2 * py`, column `2 * px`) of the evaluation at
resolution (`2 * re_size`, `2 * im_size`) holds the same value as the pixel
(row `py`, column `px`) of the evaluation at resolution (`re_size`, `im_size`)
over the same window; in particular the two have the same classification
(value 1 versus value below 1). -/
theorem refinement_preserves_value
    (maxiter : Nat) (re_min re_max : ℚ) (re_size : Nat) (im_min im_max : ℚ) (im_size : Nat)
    (task_parallel : Bool) (schedule : List Nat) (task_parallel2 : Bool)
    (schedule2 : List Nat) (h8 : 8 ∣ re_size)
    (hs : task_parallel = true → schedule.Perm (List.range im_size))
    (hs2 : task_parallel2 = true → schedule2.Perm (List.range (2 * im_size)))
    (py px : Nat) (hpy : py < im_size) (hpx : px < re_size) :
    (mandelbrot_intrinsics maxiter 4 re_min re_max (2 * re_size) im_min im_max (2 * im_size)
        task_parallel2 schedule2).cell (2 * py * (2 * re_size) + 2 * px)
      = (mandelbrot_intrinsics maxiter 4 re_min re_max re_size im_min im_max im_size
          task_parallel schedule).cell (py * re_size + px)
    ∧ ((mandelbrot_intrinsics maxiter 4 re_min re_max (2 * re_size) im_min im_max (2 * im_size)
          task_parallel2 schedule2).cell (2 * py * (2 * re_size) + 2 * px) = some 1
        ↔ (mandelbrot_intrinsics maxiter 4 re_min re_max re_size im_min im_max im_size
            task_parallel schedule).cell (py * re_size + px) = some 1) := by
  have key : (mandelbrot_intrinsics maxiter 4 re_min re_max (2 * re_size) im_min im_max
        (2 * im_size) task_parallel2 schedule2).cell (2 * py * (2 * re_size) + 2 * px)
      = (mandelbrot_intrinsics maxiter 4 re_min re_max re_size im_min im_max im_size
          task_parallel schedule).cell (py * re_size + px) := by
    rw [kernel_cell maxiter 4 re_min re_max (2 * re_size) im_min im_max (2 * im_size)
        task_parallel2 schedule2 (Dvd.dvd.mul_left h8 2) hs2 (2 * py) (2 * px) (by omega)
        (by omega),
      kernel_cell maxiter 4 re_min re_max re_size im_min im_max im_size task_parallel schedule
        h8 hs py px hpy hpx]
    congr 1
    obtain ⟨n, hn, hv, hb, he⟩ := pixel_escape maxiter 4 re_min re_max (2 * re_size) im_min
      im_max (2 * im_size) (2 * py) (2 * px) (le_refl _)
    obtain ⟨m, hm, hw, hb', he'⟩ := pixel_escape maxiter 4 re_min re_max re_size im_min
      im_max im_size py px (le_refl _)
    rw [sample_refine] at hb he
    rw [hv, hw, first_escape_unique _ maxiter n m hn hb he hm hb' he']
  exact ⟨key, by rw [key]⟩

theorem refinement_preserves_value_witness :
    8 ∣ 8 ∧ ((false = true) → [].Perm (List.range 2))
      ∧ ((true = true) → [3, 1, 0, 2].Perm (List.range (2 * 2))) ∧ 1 < 2 ∧ 5 < 8
      ∧ ((mandelbrot_intrinsics 100 4 (-2) 1 (2 * 8) (-1) 1 (2 * 2) true [3, 1, 0, 2]).cell
            (2 * 1 * (2 * 8) + 2 * 5)
          = (mandelbrot_intrinsics 100 4 (-2) 1 8 (-1) 1 2 false []).cell (1 * 8 + 5)
        ∧ ((mandelbrot_intrinsics 100 4 (-2) 1 (2 * 8) (-1) 1 (2 * 2) true [3, 1, 0, 2]).cell
              (2 * 1 * (2 * 8) + 2 * 5) = some 1
            ↔ (mandelbrot_intrinsics 100 4 (-2) 1 8 (-1) 1 2 false []).cell (1 * 8 + 5)
              = some 1)) :=
  ⟨by decide, fun h => by simp at h, fun _ => by decide, by decide, by decide,
    refinement_preserves_value 100 (-2) 1 8 (-1) 1 2 false [] true [3, 1, 0, 2] (by decide)
      (fun h => by simp at h) (fun _ => by decide) 1 5 (by decide) (by decide)⟩

/-- Claim C10. The buffer is fully populated and nothing else is written: when
`re_size` is a multiple of 8, the element indices stored by the kernel are
exactly `0, ..., re_size * im_size - 1`, each index is stored exactly once, and
no store addresses an index `≥ re_size * im_size`. -/
theorem stores_cover_buffer_once
    (maxiter : Nat) (max_len_sq re_min re_max : ℚ) (re_size : Nat) (im_min im_max : ℚ)
    (im_size : Nat) (task_parallel : Bool) (schedule : List Nat)
    (h8 : 8 ∣ re_size) (hs : task_parallel = true → schedule.Perm (List.range im_size)) :
    (∀ j, j ∈ written (mandelbrot_intrinsics maxiter max_len_sq re_min re_max re_size im_min
          im_max im_size task_parallel schedule).stores ↔ j < re_size * im_size)
    ∧ (written (mandelbrot_intrinsics maxiter max_len_sq re_min re_max re_size im_min im_max
          im_size task_parallel schedule).stores).Nodup
    ∧ (∀ idx, idx ∈ (mandelbrot_intrinsics maxiter max_len_sq re_min re_max re_size im_min
          im_max im_size task_parallel schedule).stores → idx + 8 ≤ re_size * im_size) := by
  have hperm : (written (mandelbrot_intrinsics maxiter max_len_sq re_min re_max re_size im_min
      im_max im_size task_parallel schedule).stores).Perm (List.range (re_size * im_size)) :=
    written_run_rows (locals maxiter max_len_sq re_min re_max re_size im_min im_max im_size)
      h8 im_size _ (order_perm im_size task_parallel schedule hs) _ rfl
  have hmem : ∀ j, j ∈ written (mandelbrot_intrinsics maxiter max_len_sq re_min re_max re_size
      im_min im_max im_size task_parallel schedule).stores ↔ j < re_size * im_size :=
    fun j => by rw [hperm.mem_iff, List.mem_range]
  refine ⟨hmem, hperm.nodup_iff.mpr (List.nodup_range _), ?_⟩
  intro idx hidx
  have : idx + 7 ∈ written (mandelbrot_intrinsics maxiter max_len_sq re_min re_max re_size
      im_min im_max im_size task_parallel schedule).stores := by
    simp only [written, List.mem_flatMap]
    exact ⟨idx, hidx, by simp⟩
  have := (hmem _).mp this
  omega

theorem stores_cover_buffer_once_witness :
    8 ∣ 16 ∧ ((true = true) → [1, 0].Perm (List.range 2))
      ∧ ((∀ j, j ∈ written (mandelbrot_intrinsics 100 4 (-2) 1 16 (-1) 1 2 true [1, 0]).stores
            ↔ j < 16 * 2)
        ∧ (written (mandelbrot_intrinsics 100 4 (-2) 1 16 (-1) 1 2 true [1, 0]).stores).Nodup
        ∧ (∀ idx, idx ∈ (mandelbrot_intrinsics 100 4 (-2) 1 16 (-1) 1 2 true [1, 0]).stores →
            idx + 8 ≤ 16 * 2)) :=
  ⟨by decide, fun _ => by decide,
    stores_cover_buffer_once 100 4 (-2) 1 16 (-1) 1 2 true [1, 0] (by decide)
      (fun _ => by decide)⟩

/-- Claim C11. Batch-width independence: with threshold 4 (exact arithmetic)
the value computed for a pixel does not depend on the other lanes of its
group. Every lane of every lane group of width 8 holds the value that its
pixel gets when evaluated alone in a batch of size 1 (whose loop stops as soon
as that single pixel diverges); and when `re_size` is a multiple of 8, the
buffer element of every pixel is the batch-of-1 value of its sample
coordinate. -/
theorem batch_width_independent
    (maxiter : Nat) (re_min re_max : ℚ) (re_size : Nat) (im_min im_max : ℚ) (im_size : Nat) :
    (∀ (re_coord im_coord : __m256) (i : Fin 8),
      group_counts (locals maxiter 4 re_min re_max re_size im_min im_max im_size)
          re_coord im_coord i
        = batch1_counts maxiter 4 (re_coord i) (im_coord i))
    ∧ (∀ (task_parallel : Bool) (schedule : List Nat) (py px : Nat), 8 ∣ re_size →
        (task_parallel = true → schedule.Perm (List.range im_size)) →
        py < im_size → px < re_size →
        (mandelbrot_intrinsics maxiter 4 re_min re_max re_size im_min im_max im_size
            task_parallel schedule).cell (py * re_size + px)
          = some (batch1_counts maxiter 4
              (sample re_min re_max re_size im_min im_max im_size py px).1
              (sample re_min re_max re_size im_min im_max im_size py px).2)) := by
  have key : ∀ (re_coord im_coord : __m256) (i : Fin 8),
      group_counts (locals maxiter 4 re_min re_max re_size im_min im_max im_size)
          re_coord im_coord i
        = batch1_counts maxiter 4 (re_coord i) (im_coord i) := fun re_coord im_coord i =>
    lane_eq_batch1 (locals maxiter 4 re_min re_max re_size im_min im_max im_size)
      re_coord im_coord i rfl (le_refl _)
  refine ⟨key, ?_⟩
  intro task_parallel schedule py px h8 hs hpy hpx
  rw [kernel_cell maxiter 4 re_min re_max re_size im_min im_max im_size task_parallel schedule
    h8 hs py px hpy hpx]
  obtain ⟨c1, c2⟩ := pixel_coord maxiter 4 re_min re_max re_size im_min im_max im_size
    py px ⟨px % 8, Nat.mod_lt _ (by decide)⟩ rfl
  rw [← c1, ← c2]
  exact congrArg some (key _ _ _)

theorem batch_width_independent_witness :
    8 ∣ 16 ∧ ((true = true) → [1, 0, 2].Perm (List.range 3)) ∧ 2 < 3 ∧ 11 < 16
      ∧ (mandelbrot_intrinsics 100 4 (-2) 1 16 (-1) 1 3 true [1, 0, 2]).cell (2 * 16 + 11)
        = some (batch1_counts 100 4 (sample (-2) 1 16 (-1) 1 3 2 11).1
            (sample (-2) 1 16 (-1) 1 3 2 11).2) :=
  ⟨by decide, fun _ => by decide, by decide, by decide,
    (batch_width_independent 100 (-2) 1 16 (-1) 1 3).2 true [1, 0, 2] 2 11 (by decide)
      (fun _ => by decide) (by decide) (by decide)⟩

/-- Claim C12. Freeze of diverged lanes: with threshold 4 (exact arithmetic),
for every lane group and every lane `i` of it, with coordinate
`c = (re_coord i, im_coord i)`: once the `not_diverged` mask of the lane is
false at an iteration `k` (`|z_k|^2 ≥ 4`), it is false at every later
iteration `j > k` of the group loop, and the accumulator of the lane receives
no further increment: after iteration `j` it still has the value it had on
entry to iteration `k`, although the recurrence keeps running on the lane
(its registers hold `z_j`). If the loop gets as far as iteration `k`, that
value is the one the loop finally leaves for the lane. -/
theorem diverged_lane_stays_frozen
    (maxiter : Nat) (re_min re_max : ℚ) (re_size : Nat) (im_min im_max : ℚ) (im_size : Nat)
    (re_coord im_coord : __m256) (i : Fin 8) (k j : Nat) (hkj : k < j)
    (hk : not_diverged (_mm256_set1_ps 4)
      (regs_at (locals maxiter 4 re_min re_max re_size im_min im_max im_size)
        re_coord im_coord k) i = false) :
    4 ≤ norm_sq (orbit (re_coord i) (im_coord i) k)
    ∧ not_diverged (_mm256_set1_ps 4)
        (regs_at (locals maxiter 4 re_min re_max re_size im_min im_max im_size)
          re_coord im_coord j) i = false
    ∧ 4 ≤ norm_sq (orbit (re_coord i) (im_coord i) j)
    ∧ (regs_at (locals maxiter 4 re_min re_max re_size im_min im_max im_size)
          re_coord im_coord (j + 1)).counts i
        = (regs_at (locals maxiter 4 re_min re_max re_size im_min im_max im_size)
            re_coord im_coord k).counts i
    ∧ ((regs_at (locals maxiter 4 re_min re_max re_size im_min im_max im_size)
          re_coord im_coord j).re i,
        (regs_at (locals maxiter 4 re_min re_max re_size im_min im_max im_size)
          re_coord im_coord j).im i) = orbit (re_coord i) (im_coord i) j
    ∧ (k < maxiter →
        (∀ m, m < k → _mm256_movemask_ps (not_diverged (_mm256_set1_ps 4)
          (regs_at (locals maxiter 4 re_min re_max re_size im_min im_max im_size)
            re_coord im_coord m)) ≠ 0) →
        group_counts (locals maxiter 4 re_min re_max re_size im_min im_max im_size)
            re_coord im_coord i
          = (regs_at (locals maxiter 4 re_min re_max re_size im_min im_max im_size)
              re_coord im_coord k).counts i) := by
  have hthr : (4 : ℚ) ≤ (locals maxiter 4 re_min re_max re_size im_min im_max
      im_size).max_len_sq_v i := le_refl _
  have hfro := frozen_from (locals maxiter 4 re_min re_max re_size im_min im_max im_size)
    re_coord im_coord i hthr k hk
  have hmask : ∀ m, not_diverged (_mm256_set1_ps 4)
      (regs_at (locals maxiter 4 re_min re_max re_size im_min im_max im_size)
        re_coord im_coord m) i = false →
      4 ≤ norm_sq (orbit (re_coord i) (im_coord i) m) := by
    intro m hm
    have := not_diverged_lane (locals maxiter 4 re_min re_max re_size im_min im_max im_size)
      re_coord im_coord i m
    rw [show (locals maxiter 4 re_min re_max re_size im_min im_max im_size).max_len_sq_v
      = _mm256_set1_ps 4 from rfl, hm] at this
    have hb : ¬ bounded 4 (re_coord i) (im_coord i) m := by
      simpa [_mm256_set1_ps] using this.symm
    exact not_lt.mp hb
  have hj := hfro (j - k)
  rw [Nat.add_sub_cancel' (le_of_lt hkj)] at hj
  obtain ⟨o1, o2⟩ := regs_at_orbit
    (locals maxiter 4 re_min re_max re_size im_min im_max im_size) re_coord im_coord i j
  refine ⟨hmask k hk, hj.1, hmask j hj.1, hj.2, Prod.ext o1 o2, ?_⟩
  intro hkm hrun
  obtain ⟨J, hJ, hv, _, hstop⟩ := group_counts_regs
    (locals maxiter 4 re_min re_max re_size im_min im_max im_size) re_coord im_coord
  have hkJ : k < J := by
    by_contra hle
    rcases hstop with h | ⟨h0, hz⟩
    · have : J = maxiter := h
      omega
    · exact hrun (J - 1) (by omega) hz
  have hJk := (hfro (J - 1 - k)).2
  have e : k + (J - 1 - k) + 1 = J := by omega
  rw [e] at hJk
  rw [hv, hJk]

theorem diverged_lane_stays_frozen_witness :
    0 < 1
      ∧ not_diverged (_mm256_set1_ps 4)
          (regs_at (locals 3 4 (-2) 2 8 (-2) 2 4)
            (_mm256_set_ps 7 6 5 4 3 2 1 0) (_mm256_set1_ps 0) 0) 2 = false
      ∧ 4 ≤ norm_sq (orbit (_mm256_set_ps 7 6 5 4 3 2 1 0 2) (_mm256_set1_ps 0 2) 1)
      ∧ (regs_at (locals 3 4 (-2) 2 8 (-2) 2 4)
            (_mm256_set_ps 7 6 5 4 3 2 1 0) (_mm256_set1_ps 0) (1 + 1)).counts 2
          = (regs_at (locals 3 4 (-2) 2 8 (-2) 2 4)
              (_mm256_set_ps 7 6 5 4 3 2 1 0) (_mm256_set1_ps 0) 0).counts 2 :=
  have hk : not_diverged (_mm256_set1_ps 4)
      (regs_at (locals 3 4 (-2) 2 8 (-2) 2 4)
        (_mm256_set_ps 7 6 5 4 3 2 1 0) (_mm256_set1_ps 0) 0) 2 = false := by
    simp only [not_diverged, regs_at, Function.iterate_zero, id_eq, _mm256_cmp_ps_LT_OS,
      _mm256_add_ps, _mm256_mul_ps, _mm256_set1_ps, _mm256_set_ps]
    norm_num [Matrix.cons_val_two]
  ⟨by decide, hk,
    (diverged_lane_stays_frozen 3 (-2) 2 8 (-2) 2 4 (_mm256_set_ps 7 6 5 4 3 2 1 0)
      (_mm256_set1_ps 0) 2 0 1 (by decide) hk).2.2.1,
    (diverged_lane_stays_frozen 3 (-2) 2 8 (-2) 2 4 (_mm256_set_ps 7 6 5 4 3 2 1 0)
      (_mm256_set1_ps 0) 2 0 1 (by decide) hk).2.2.2.1⟩

/-- Claim C13. Early exit is sound: with threshold 4 (exact arithmetic), for
every lane group the accumulator vector obtained with the break on an
all-false mask equals the accumulator vector obtained by running the same loop
for all `maxiter` iterations without the break; so the kernel with line 61
removed returns the same buffer (and executes the same stores). -/
theorem early_exit_sound
    (maxiter : Nat) (re_min re_max : ℚ) (re_size : Nat) (im_min im_max : ℚ) (im_size : Nat)
    (task_parallel : Bool) (schedule : List Nat) :
    (∀ re_coord im_coord : __m256,
      group_counts (locals maxiter 4 re_min re_max re_size im_min im_max im_size)
          re_coord im_coord
        = iter_loop_no_break (_mm256_set1_ps 4) (_mm256_set1_ps (1 / (maxiter : ℚ)))
            re_coord im_coord maxiter re_coord im_coord _mm256_setzero_ps)
    ∧ mandelbrot_intrinsics maxiter 4 re_min re_max re_size im_min im_max im_size
          task_parallel schedule
        = mandelbrot_intrinsics_no_break maxiter 4 re_min re_max re_size im_min im_max im_size
            task_parallel schedule := by
  have hthr : ∀ i, (4 : ℚ) ≤ (locals maxiter 4 re_min re_max re_size im_min im_max
      im_size).max_len_sq_v i := fun _ => le_refl _
  refine ⟨fun re_coord im_coord => group_counts_eq_no_break _ hthr re_coord im_coord, ?_⟩
  simp only [mandelbrot_intrinsics, mandelbrot_intrinsics_no_break, run_rows]
  rw [row_body_no_break_eq _ hthr]

/-- Claim C14. Aligned layout (element size 4 bytes, lane width 8). The kernel
requests `re_size * im_size * 4` bytes at alignment 32. When `re_size` is a
multiple of 8 the requested size is a multiple of the alignment, and every
store of a lane group is at an element offset `py * re_size + px`
(`py < im_size`, `px < re_size`) that is a multiple of 8, a byte offset that is
a multiple of 32. When `re_size` is not a multiple of 8 and `im_size ≥ 2`, some
store offset is not a multiple of 8. -/
theorem aligned_layout
    (maxiter : Nat) (max_len_sq re_min re_max : ℚ) (re_size : Nat) (im_min im_max : ℚ)
    (im_size : Nat) (task_parallel : Bool) (schedule : List Nat)
    (hs : task_parallel = true → schedule.Perm (List.range im_size)) :
    (mandelbrot_intrinsics maxiter max_len_sq re_min re_max re_size im_min im_max im_size
        task_parallel schedule).alignment = 32
    ∧ (mandelbrot_intrinsics maxiter max_len_sq re_min re_max re_size im_min im_max im_size
        task_parallel schedule).size = re_size * im_size * 4
    ∧ (8 ∣ re_size →
        32 ∣ re_size * im_size * 4
        ∧ ∀ idx, idx ∈ (mandelbrot_intrinsics maxiter max_len_sq re_min re_max re_size im_min
              im_max im_size task_parallel schedule).stores →
            (∃ py px, py < im_size ∧ px < re_size ∧ idx = py * re_size + px)
            ∧ 8 ∣ idx ∧ 32 ∣ idx * sizeof_T)
    ∧ (¬ 8 ∣ re_size → 2 ≤ im_size →
        ∃ idx, idx ∈ (mandelbrot_intrinsics maxiter max_len_sq re_min re_max re_size im_min
              im_max im_size task_parallel schedule).stores ∧ ¬ 8 ∣ idx) := by
  obtain ⟨hst, hal, hsz⟩ := kernel_stores maxiter max_len_sq re_min re_max re_size im_min
    im_max im_size task_parallel schedule
  have hperm := order_perm im_size task_parallel schedule hs
  refine ⟨by rw [hal]; rfl, by rw [hsz]; rfl, ?_, ?_⟩
  · intro h8
    refine ⟨?_, ?_⟩
    · obtain ⟨c, hc⟩ := h8
      exact ⟨c * im_size, by rw [hc]; ring⟩
    · intro idx hidx
      rw [hst, mem_kernel_stores] at hidx
      obtain ⟨py, g, hpy, hg, rfl⟩ := hidx
      have hpy' : py < im_size := List.mem_range.mp ((hperm.mem_iff).mp hpy)
      have hpx : 8 * g < re_size := by
        obtain ⟨c, hc⟩ := h8
        omega
      have hd : 8 ∣ py * re_size + 8 * g :=
        dvd_add (Dvd.dvd.mul_left h8 py) (Dvd.intro g rfl)
      refine ⟨⟨py, 8 * g, hpy', hpx, rfl⟩, hd, ?_⟩
      obtain ⟨t, ht⟩ := hd
      exact ⟨t, by rw [ht]; simp only [sizeof_T]; ring⟩
  · intro h8 him
    have hR : 0 < re_size := by
      rcases Nat.eq_zero_or_pos re_size with h0 | h0
      · exact absurd (h0 ▸ Nat.dvd_zero 8) h8
      · exact h0
    refine ⟨1 * re_size + 8 * 0, ?_, by simpa using h8⟩
    rw [hst, mem_kernel_stores]
    exact ⟨1, 0, (hperm.mem_iff).mpr (List.mem_range.mpr (by omega)), by omega, rfl⟩

theorem aligned_layout_witness :
    ((true = true) → [1, 0].Perm (List.range 2))
      ∧ (mandelbrot_intrinsics 100 4 (-2) 1 12 (-1) 1 2 true [1, 0]).alignment = 32
      ∧ (mandelbrot_intrinsics 100 4 (-2) 1 12 (-1) 1 2 true [1, 0]).size = 12 * 2 * 4
      ∧ ∃ idx, idx ∈ (mandelbrot_intrinsics 100 4 (-2) 1 12 (-1) 1 2 true [1, 0]).stores
          ∧ ¬ 8 ∣ idx :=
  ⟨fun _ => by decide,
    (aligned_layout 100 4 (-2) 1 12 (-1) 1 2 true [1, 0] (fun _ => by decide)).1,
    (aligned_layout 100 4 (-2) 1 12 (-1) 1 2 true [1, 0] (fun _ => by decide)).2.1,
    (aligned_layout 100 4 (-2) 1 12 (-1) 1 2 true [1, 0] (fun _ => by decide)).2.2.2
      (by decide) (by decide)⟩

/-- Claim C15, as amended. Ragged final group, for every `re_size ≥ 1` that is
not a multiple of 8 (the store of line 68 faults at an address that is not
32-byte aligned). With `im_size = 1` no store faults, the kernel returns, and
the store of the last lane group of the row, at element offset
`8 * (⌈re_size / 8⌉ - 1)`, starts inside the buffer and addresses an element
index `≥ re_size * im_size`: the kernel writes past the end of the
`re_size * im_size * 4` bytes it allocated. With `im_size ≥ 2`, in the
sequential order, the first store of row 1, at the misaligned offset
`re_size`, faults: only the stores of row 0 have been executed, the store of
the last lane group of the last row is not among them. Nothing validates the
input in either case. -/
theorem ragged_group_overrun_or_fault
    (maxiter : Nat) (max_len_sq re_min re_max : ℚ) (re_size : Nat) (im_min im_max : ℚ)
    (im_size : Nat) (hre : 1 ≤ re_size) (h8 : ¬ 8 ∣ re_size) :
    (∀ (task_parallel : Bool) (schedule : List Nat),
      (task_parallel = true → schedule.Perm (List.range 1)) →
      mandelbrot_intrinsics_checked maxiter max_len_sq re_min re_max re_size im_min im_max 1
          task_parallel schedule
        = Outcome.returned (mandelbrot_intrinsics maxiter max_len_sq re_min re_max re_size
            im_min im_max 1 task_parallel schedule)
      ∧ 8 * ((re_size + 7) / 8 - 1)
          ∈ (mandelbrot_intrinsics maxiter max_len_sq re_min re_max re_size im_min im_max 1
              task_parallel schedule).stores
      ∧ 8 * ((re_size + 7) / 8 - 1) < re_size * 1
      ∧ re_size * 1 ≤ 8 * ((re_size + 7) / 8 - 1) + 7
      ∧ (mandelbrot_intrinsics maxiter max_len_sq re_min re_max re_size im_min im_max 1
            task_parallel schedule).cell (8 * ((re_size + 7) / 8 - 1) + 7) ≠ none
      ∧ (mandelbrot_intrinsics maxiter max_len_sq re_min re_max re_size im_min im_max 1
            task_parallel schedule).size = re_size * 1 * sizeof_T)
    ∧ (2 ≤ im_size → ∀ schedule : List Nat,
        mandelbrot_intrinsics_checked maxiter max_len_sq re_min re_max re_size im_min im_max
            im_size false schedule
          = Outcome.fault
              (row_body (locals maxiter max_len_sq re_min re_max re_size im_min im_max im_size)
                0 (aligned_alloc (sizeof_T * packing) (re_size * im_size * sizeof_T)))
              (1 * re_size)
        ∧ ¬ 8 ∣ 1 * re_size
        ∧ (row_body (locals maxiter max_len_sq re_min re_max re_size im_min im_max im_size)
              0 (aligned_alloc (sizeof_T * packing) (re_size * im_size * sizeof_T))).stores
            = (List.range ((re_size + 7) / 8)).map (fun g => 0 * re_size + 8 * g)
        ∧ (im_size - 1) * re_size + 8 * ((re_size + 7) / 8 - 1)
            ∉ (row_body (locals maxiter max_len_sq re_min re_max re_size im_min im_max im_size)
                0 (aligned_alloc (sizeof_T * packing) (re_size * im_size * sizeof_T))).stores) := by
  refine ⟨?_, ?_⟩
  · intro task_parallel schedule hs
    obtain ⟨hst, _, hsz⟩ := kernel_stores maxiter max_len_sq re_min re_max re_size im_min
      im_max 1 task_parallel schedule
    have hperm := order_perm 1 task_parallel schedule hs
    have hlast : 0 ∈ (if task_parallel then schedule else List.range 1) :=
      (hperm.mem_iff).mpr (List.mem_range.mpr (by omega))
    have hmem : 8 * ((re_size + 7) / 8 - 1)
        ∈ (mandelbrot_intrinsics maxiter max_len_sq re_min re_max re_size im_min im_max 1
            task_parallel schedule).stores := by
      rw [hst, mem_kernel_stores]
      exact ⟨0, (re_size + 7) / 8 - 1, hlast, by omega, by simp⟩
    refine ⟨kernel_checked_single_row maxiter max_len_sq re_min re_max re_size im_min im_max
      task_parallel schedule hs, hmem, by omega, by omega, ?_, hsz⟩
    obtain ⟨_, hcell, _, _⟩ := run_rows_any
      (locals maxiter max_len_sq re_min re_max re_size im_min im_max 1)
      (aligned_alloc (sizeof_T * packing) (re_size * 1 * sizeof_T))
      (if task_parallel then schedule else List.range 1)
    have hR : (locals maxiter max_len_sq re_min re_max re_size im_min im_max 1).re_size
        = re_size := rfl
    exact hcell 0 (8 * ((re_size + 7) / 8 - 1) + 7) hlast (by rw [hR]; omega)
      (by rw [hR]; omega)
  · intro him schedule
    have hR : (locals maxiter max_len_sq re_min re_max re_size im_min im_max im_size).re_size
        = re_size := rfl
    obtain ⟨r1, _, _, _, _⟩ := row_body_any
      (locals maxiter max_len_sq re_min re_max re_size im_min im_max im_size) 0
      (aligned_alloc (sizeof_T * packing) (re_size * im_size * sizeof_T))
    have hstores : (row_body
          (locals maxiter max_len_sq re_min re_max re_size im_min im_max im_size)
          0 (aligned_alloc (sizeof_T * packing) (re_size * im_size * sizeof_T))).stores
        = (List.range ((re_size + 7) / 8)).map (fun g => 0 * re_size + 8 * g) := by
      rw [r1]
      simp [aligned_alloc, group_offsets, locals]
    refine ⟨?_, by simpa using h8, hstores, ?_⟩
    · exact run_rows_checked_sequential_fault
        (locals maxiter max_len_sq re_min re_max re_size im_min im_max im_size) im_size
        (aligned_alloc (sizeof_T * packing) (re_size * im_size * sizeof_T)) h8 him
    · rw [hstores]
      simp only [List.mem_map, List.mem_range, not_exists, not_and]
      intro g hg heq
      have hpos : re_size ≤ (im_size - 1) * re_size :=
        Nat.le_mul_of_pos_left re_size (by omega)
      omega

theorem ragged_group_overrun_or_fault_witness :
    1 ≤ 5 ∧ ¬ 8 ∣ 5 ∧ ((false = true) → [].Perm (List.range 1)) ∧ 2 ≤ 2
      ∧ mandelbrot_intrinsics_checked 100 4 (-2) 1 5 (-1) 1 1 false []
          = Outcome.returned (mandelbrot_intrinsics 100 4 (-2) 1 5 (-1) 1 1 false [])
      ∧ 5 * 1 ≤ 8 * ((5 + 7) / 8 - 1) + 7
      ∧ (mandelbrot_intrinsics 100 4 (-2) 1 5 (-1) 1 1 false []).cell
          (8 * ((5 + 7) / 8 - 1) + 7) ≠ none
      ∧ mandelbrot_intrinsics_checked 100 4 (-2) 1 5 (-1) 1 2 false []
          = Outcome.fault
              (row_body (locals 100 4 (-2) 1 5 (-1) 1 2) 0
                (aligned_alloc (sizeof_T * packing) (5 * 2 * sizeof_T)))
              (1 * 5) :=
  ⟨by decide, by decide, fun h => by simp at h, by decide,
    ((ragged_group_overrun_or_fault 100 4 (-2) 1 5 (-1) 1 2 (by decide) (by decide)).1 false []
      (fun h => by simp at h)).1,
    ((ragged_group_overrun_or_fault 100 4 (-2) 1 5 (-1) 1 2 (by decide) (by decide)).1 false []
      (fun h => by simp at h)).2.2.2.1,
    ((ragged_group_overrun_or_fault 100 4 (-2) 1 5 (-1) 1 2 (by decide) (by decide)).1 false []
      (fun h => by simp at h)).2.2.2.2.1,
    ((ragged_group_overrun_or_fault 100 4 (-2) 1 5 (-1) 1 2 (by decide) (by decide)).2
      (by decide) []).1⟩

/-- Claim C15 fails as stated: window `re ∈ [-2, 1]`, `im ∈ [-1, 1]`, grid
12 x 2 (`re_size = 12` is not a multiple of 8), `maxiter = 100`, threshold 4,
sequential. Row 0 executes the stores at offsets 0 and 8; the first store of
row 1 is at offset 12, byte offset 48, not 32-byte aligned: the aligned store
of line 68 faults. The store of the last lane group of the last row, at offset
`(2 - 1) * 12 + 8 * (2 - 1) = 20`, is never executed, and no element at or
beyond index `12 * 2 = 24` has been written. -/
theorem ragged_group_counterexample :
    1 ≤ 12 ∧ ¬ 8 ∣ 12 ∧ 1 ≤ 2
      ∧ ∃ h : Heap,
        mandelbrot_intrinsics_checked 100 4 (-2) 1 12 (-1) 1 2 false [] = Outcome.fault h 12
        ∧ h.stores = [0, 8]
        ∧ (2 - 1) * 12 + 8 * ((12 + 7) / 8 - 1) ∉ h.stores
        ∧ (∀ j, 12 * 2 ≤ j → h.cell j = none) := by
  refine ⟨by decide, by decide, by decide,
    row_body (locals 100 4 (-2) 1 12 (-1) 1 2) 0
      (aligned_alloc (sizeof_T * packing) (12 * 2 * sizeof_T)), ?_⟩
  obtain ⟨r1, _, r3, _, _⟩ := row_body_any (locals 100 4 (-2) 1 12 (-1) 1 2) 0
    (aligned_alloc (sizeof_T * packing) (12 * 2 * sizeof_T))
  have hstores : (row_body (locals 100 4 (-2) 1 12 (-1) 1 2) 0
      (aligned_alloc (sizeof_T * packing) (12 * 2 * sizeof_T))).stores = [0, 8] := by
    rw [r1]
    rfl
  refine ⟨?_, hstores, ?_, ?_⟩
  · exact run_rows_checked_sequential_fault (locals 100 4 (-2) 1 12 (-1) 1 2) 2
      (aligned_alloc (sizeof_T * packing) (12 * 2 * sizeof_T)) (by decide) (by decide)
  · rw [hstores]
    decide
  · intro j hj
    have hR : (locals 100 4 (-2) 1 12 (-1) 1 2).re_size = 12 := rfl
    rw [r3 j (by rw [hR]; omega)]
    rfl

/-- Claim C16. Row frame: when `re_size` is a multiple of 8, the body of the
row loop for row `py`, run on any heap, executes the stores of row `py` only;
these address exactly the indices in `[py * re_size, (py + 1) * re_size)`;
every other element of the buffer is left unchanged; and the index sets
written by two distinct rows are disjoint. -/
theorem row_frame
    (maxiter : Nat) (max_len_sq re_min re_max : ℚ) (re_size : Nat) (im_min im_max : ℚ)
    (im_size : Nat) (h8 : 8 ∣ re_size) (py : Nat) (result : Heap) :
    (row_body (locals maxiter max_len_sq re_min re_max re_size im_min im_max im_size) py
        result).stores
      = result.stores
        ++ row_stores (locals maxiter max_len_sq re_min re_max re_size im_min im_max im_size) py
    ∧ (∀ j, j ∈ written (row_stores
          (locals maxiter max_len_sq re_min re_max re_size im_min im_max im_size) py)
        ↔ py * re_size ≤ j ∧ j < (py + 1) * re_size)
    ∧ (∀ j, ¬ (py * re_size ≤ j ∧ j < (py + 1) * re_size) →
        (row_body (locals maxiter max_len_sq re_min re_max re_size im_min im_max im_size) py
          result).cell j = result.cell j)
    ∧ (∀ py', py' ≠ py → ∀ j,
        j ∈ written (row_stores
          (locals maxiter max_len_sq re_min re_max re_size im_min im_max im_size) py) →
        j ∉ written (row_stores
          (locals maxiter max_len_sq re_min re_max re_size im_min im_max im_size) py')) := by
  obtain ⟨_, r2, r3⟩ := row_body_spec
    (locals maxiter max_len_sq re_min re_max re_size im_min im_max im_size) h8 py result
  have hR : (locals maxiter max_len_sq re_min re_max re_size im_min im_max im_size).re_size
      = re_size := rfl
  have hmem : ∀ q j, j ∈ written (row_stores
        (locals maxiter max_len_sq re_min re_max re_size im_min im_max im_size) q)
      ↔ q * re_size ≤ j ∧ j < (q + 1) * re_size := by
    intro q j
    rw [written_row_stores _ h8 q, List.mem_range'_1, hR]
    have e : (q + 1) * re_size = q * re_size + re_size := by ring
    rw [e]
  refine ⟨r3, hmem py, ?_, ?_⟩
  · intro j hj
    rw [hR] at r2
    exact r2 j (by omega)
  · intro py' hne j hj hj'
    rw [hmem] at hj hj'
    have e : (py + 1) * re_size = py * re_size + re_size := by ring
    have e' : (py' + 1) * re_size = py' * re_size + re_size := by ring
    have hd := row_disjoint re_size py py' (j - py' * re_size) hne (by omega)
    omega

theorem row_frame_witness :
    8 ∣ 16
      ∧ (∀ j, ¬ (2 * 16 ≤ j ∧ j < (2 + 1) * 16) →
          (row_body (locals 100 4 (-2) 1 16 (-1) 1 3) 2
            (aligned_alloc 32 (16 * 3 * 4))).cell j = (aligned_alloc 32 (16 * 3 * 4)).cell j)
      ∧ (∀ j, j ∈ written (row_stores (locals 100 4 (-2) 1 16 (-1) 1 3) 2)
          ↔ 2 * 16 ≤ j ∧ j < (2 + 1) * 16) :=
  ⟨by decide,
    (row_frame 100 4 (-2) 1 16 (-1) 1 3 (by decide) 2 (aligned_alloc 32 (16 * 3 * 4))).2.2.1,
    (row_frame 100 4 (-2) 1 16 (-1) 1 3 (by decide) 2 (aligned_alloc 32 (16 * 3 * 4))).2.1⟩

/-- Claim C17. The divergence test is applied to `z_0 = c` before any increment
and is strict (`len_sq < threshold`): for the threshold 4 of the program, and
for every threshold of at least 4 (`maxiter > 0`, `re_size` a multiple of 8,
exact arithmetic), the output of a pixel is 0 if and only if its own sample
coordinate satisfies `re^2 + im^2 ≥ threshold`. In particular with threshold 4
the pixel at `c = (-2, 0)`, a point of the Mandelbrot set (its orbit stays on
the circle `|z| = 2`), receives 0 rather than 1. -/
theorem output_zero_iff_start_escaped
    (maxiter : Nat) (max_len_sq re_min re_max : ℚ) (re_size : Nat) (im_min im_max : ℚ)
    (im_size : Nat) (task_parallel : Bool) (schedule : List Nat)
    (hthr : 4 ≤ max_len_sq) (hmax : 0 < maxiter) (h8 : 8 ∣ re_size)
    (hs : task_parallel = true → schedule.Perm (List.range im_size))
    (py px : Nat) (hpy : py < im_size) (hpx : px < re_size) :
    ((mandelbrot_intrinsics maxiter max_len_sq re_min re_max re_size im_min im_max im_size
          task_parallel schedule).cell (py * re_size + px) = some 0
        ↔ max_len_sq ≤ (sample re_min re_max re_size im_min im_max im_size py px).1 ^ 2
            + (sample re_min re_max re_size im_min im_max im_size py px).2 ^ 2)
    ∧ (∀ k, norm_sq (orbit (-2) 0 k) = 4)
    ∧ (max_len_sq = 4 → sample re_min re_max re_size im_min im_max im_size py px = (-2, 0) →
        (mandelbrot_intrinsics maxiter max_len_sq re_min re_max re_size im_min im_max im_size
          task_parallel schedule).cell (py * re_size + px) = some 0) := by
  have hiff : (mandelbrot_intrinsics maxiter max_len_sq re_min re_max re_size im_min im_max
        im_size task_parallel schedule).cell (py * re_size + px) = some 0
      ↔ max_len_sq ≤ (sample re_min re_max re_size im_min im_max im_size py px).1 ^ 2
          + (sample re_min re_max re_size im_min im_max im_size py px).2 ^ 2 := by
    rw [kernel_cell maxiter max_len_sq re_min re_max re_size im_min im_max im_size
      task_parallel schedule h8 hs py px hpy hpx, Option.some_inj]
    constructor
    · intro h0
      obtain ⟨n, hn, hv, _, he⟩ :=
        pixel_escape maxiter max_len_sq re_min re_max re_size im_min im_max im_size py px hthr
      rw [hv] at h0
      have hm : (maxiter : ℚ) ≠ 0 := by exact_mod_cast (ne_of_gt hmax)
      have hn0 : n = 0 := by
        rcases div_eq_zero_iff.mp h0 with h | h
        · exact_mod_cast h
        · exact absurd h hm
      have := he (by omega)
      rw [hn0] at this
      simpa only [bounded, orbit, norm_sq, not_lt] using this
    · intro hge
      apply pixel_zero_of_escaped maxiter max_len_sq re_min re_max re_size im_min im_max
        im_size py px hthr
      simpa only [bounded, orbit, norm_sq, not_lt] using hge
  refine ⟨hiff, orbit_neg_two, ?_⟩
  intro h4 hc
  rw [hiff, hc, h4]
  norm_num

theorem output_zero_iff_start_escaped_witness :
    (4 : ℚ) ≤ 4 ∧ 0 < 100 ∧ 8 ∣ 8 ∧ ((false = true) → [].Perm (List.range 4)) ∧ 2 < 4 ∧ 0 < 8
      ∧ sample (-2) 2 8 (-2) 2 4 2 0 = (-2, 0)
      ∧ (mandelbrot_intrinsics 100 4 (-2) 2 8 (-2) 2 4 false []).cell (2 * 8 + 0) = some 0 :=
  ⟨le_refl _, by decide, by decide, fun h => by simp at h, by decide, by decide,
    by simp only [sample]; norm_num,
    (output_zero_iff_start_escaped 100 4 (-2) 2 8 (-2) 2 4 false [] (le_refl _) (by decide)
      (by decide) (fun h => by simp at h) 2 0 (by decide) (by decide)).2.2 rfl
      (by simp only [sample]; norm_num)⟩

/-- The bound 4 on the threshold is needed where escape has to be final (the
mask is recomputed at every iteration). With threshold 1, window
`re ∈ [-1, 7]`, `im ∈ [0, 1]`, grid 8 x 1, `maxiter = 2`: the pixel (0, 0) has
`c = (-1, 0)` with `re^2 + im^2 = 1 ≥ threshold` and gets no increment at
iteration 0; the loop goes on because the lane of `c = (0, 0)` is bounded; at
iteration 1 the lane holds `z_1 = 0` and is counted: the element stored is
`1/2`, not 0. -/
theorem reentry_below_threshold_four :
    sample (-1) 7 8 0 1 1 0 0 = (-1, 0)
      ∧ (1 : ℚ) ≤ (sample (-1) 7 8 0 1 1 0 0).1 ^ 2 + (sample (-1) 7 8 0 1 1 0 0).2 ^ 2
      ∧ (mandelbrot_intrinsics 2 1 (-1) 7 8 0 1 1 false []).cell (0 * 8 + 0) = some (1 / 2)
      ∧ ¬ ((mandelbrot_intrinsics 2 1 (-1) 7 8 0 1 1 false []).cell (0 * 8 + 0) = some 0
          ↔ (1 : ℚ) ≤ (sample (-1) 7 8 0 1 1 0 0).1 ^ 2
              + (sample (-1) 7 8 0 1 1 0 0).2 ^ 2) := by
  have hc : sample (-1) 7 8 0 1 1 0 0 = (-1, 0) := by simp only [sample]; norm_num
  have hge : (1 : ℚ) ≤ (sample (-1) 7 8 0 1 1 0 0).1 ^ 2
      + (sample (-1) 7 8 0 1 1 0 0).2 ^ 2 := by rw [hc]; norm_num
  have hv : (mandelbrot_intrinsics 2 1 (-1) 7 8 0 1 1 false []).cell (0 * 8 + 0)
      = some (1 / 2) := by
    rw [kernel_cell 2 1 (-1) 7 8 0 1 1 false [] (by decide) (fun h => by simp at h) 0 0
      (by decide) (by decide)]
    congr 1
    obtain ⟨a0, b0⟩ := pixel_coord 2 1 (-1) 7 8 0 1 1 0 0 ⟨0, by decide⟩ rfl
    obtain ⟨a1, b1⟩ := pixel_coord 2 1 (-1) 7 8 0 1 1 0 1 ⟨1, by decide⟩ rfl
    have hc1 : sample (-1) 7 8 0 1 1 0 1 = (0, 0) := by simp only [sample]; norm_num
    rw [hc] at a0 b0
    rw [hc1] at a1 b1
    obtain ⟨J, hJ, hval, hstop⟩ := group_counts_spec (locals 2 1 (-1) 7 8 0 1 1)
      (advance (locals 2 1 (-1) 7 8 0 1 1).re_step_v (0 / 8) (locals 2 1 (-1) 7 8 0 1 1).re_min_v)
      (_mm256_set1_ps ((locals 2 1 (-1) 7 8 0 1 1).im_min
        + ((0 : Nat) : ℚ) * (locals 2 1 (-1) 7 8 0 1 1).im_step))
    have hJ2 : J = 2 := by
      rcases hstop with h | ⟨_, h⟩
      · exact h
      · exfalso
        apply h ⟨1, by decide⟩
        have a1' : advance (locals 2 1 (-1) 7 8 0 1 1).re_step_v (0 / 8)
            (locals 2 1 (-1) 7 8 0 1 1).re_min_v ⟨1, by decide⟩ = 0 := a1
        rw [a1', b1]
        simp only [bounded, orbit_origin, norm_sq]
        show (0 : ℚ) ^ 2 + 0 ^ 2 < 1
        norm_num
    have := hval ⟨0, by decide⟩
    rw [a0, b0, hJ2] at this
    simp only [pixel_value]
    rw [this]
    have hcount : Nat.count (bounded 1 (-1) 0) 2 = 1 := by
      have h0 : ¬ bounded 1 (-1) 0 0 := by
        simp only [bounded, orbit, norm_sq]; norm_num
      have h1 : bounded 1 (-1) 0 1 := by
        simp only [bounded, orbit, norm_sq]; norm_num
      simp [Nat.count_succ, h0, h1]
    have hthr1 : (locals 2 1 (-1) 7 8 0 1 1).max_len_sq_v ⟨0, by decide⟩ = 1 := rfl
    have hinv : (locals 2 1 (-1) 7 8 0 1 1).inv_maxiter ⟨0, by decide⟩ = 1 / 2 := by
      simp only [locals, _mm256_set1_ps]; norm_num
    rw [hthr1, hinv, hcount]
    norm_num
  refine ⟨hc, hge, hv, ?_⟩
  intro hiff
  have := hiff.mpr hge
  rw [hv] at this
  norm_num at this

end Mandelbrot
